import Mathlib

/-!
Shallow embedding of the apollo-engine-reporting per-request tracer
(`EngineReportingExtension` and its helpers) together with proofs about it.

Conventions of the embedding:
* A graphql-js `ResponsePath` is a linked list whose head is the leaf key and
  whose `prev` pointer is the tail; we model it as a `List PathSeg`, head =
  leaf segment, `[]` = the `undefined` path of the root.
* The mutable `Map<string, Trace.Node>` plus the `Trace.Node` objects are
  modelled as an arena: nodes live in a list (`BState.nodes`, node id =
  position) and the registry maps path strings to node ids.  `Map.set` is
  modelled by prepending (a later binding shadows an earlier one) and
  `Map.get` by `regLookup`, which returns the most recent binding.
* TypeScript crashes (the non-null assertions `path.prev!` and `node!`) are
  modelled by returning `none`.
* JavaScript values appearing as variable values are modelled by `JSValue`;
  `JSValue.cyclicV` stands for any value on which `JSON.stringify` throws
  (for example a cyclic object), and number values are modelled as integers.
-/

/-- One segment of a response path: a field name or an array index. -/
inductive PathSeg where
  | field (name : String)
  | index (i : Nat)
deriving DecidableEq, Repr

/-- How a path segment is rendered inside a joined path string.  JavaScript
`Array.prototype.join` stringifies numbers in decimal, so an index renders
via `toString`. -/
def segToString : PathSeg → String
  | .field name => name
  | .index i => toString i

/-- Convert from the linked-list ResponsePath format to a dot-joined string,
including the full path (field names and array indices), root first.
`responsePathAsArray` reverses the leaf-first linked list. -/
def responsePathAsString (p : List PathSeg) : String :=
  String.intercalate "." (p.reverse.map segToString)

/-- Values of the protobuf `Trace.Error` message built by `addError`:
message, the (line, column) locations, and the JSON serialization of the
original error object.  The `json` field keeps the serialized error as a
structured value (`GQLError` is defined below); only its presence matters
for the claims. -/
structure TraceLocation where
  line : Nat
  column : Nat
deriving DecidableEq, Repr

/-- JavaScript values used as GraphQL variable values.  `cyclicV` models a
value on which `JSON.stringify` throws; numbers are modelled as integers. -/
inductive JSValue where
  | nullV
  | undefinedV
  | boolV (b : Bool)
  | numV (n : Int)
  | strV (s : String)
  | arrV (xs : List JSValue)
  | objV (fields : List (String × JSValue))
  | cyclicV

/-- A `GraphQLError` as the tracer sees it.  The payload fields `nodes`,
`source`, `positions` and `originalError` are opaque to the tracer (it only
copies them), so they are modelled as opaque markers.  `locations` is the
list derived by graphql-js from `nodes`/`source`/`positions`; since
`rewriteError` copies those three fields verbatim into the rebuilt error, the
rebuilt error has the same derived `locations`. -/
structure GQLError where
  message : String
  nodes : Option Nat := none
  source : Option Nat := none
  positions : Option Nat := none
  path : Option (List PathSeg) := none
  originalError : Option Nat := none
  extensions : Option (List (String × JSValue)) := none
  locations : List TraceLocation := []

/-- The protobuf `Trace.Error` entry pushed by `addError`. -/
structure TraceError where
  message : String
  location : List TraceLocation
  json : GQLError

/-- One `Trace.Node` of the trace tree.  `child` holds arena ids of the
children in push order; `error` the attached `Trace.Error` records.
`originPath` is ghost bookkeeping (it does not influence any computation):
the leaf-first path for which `newNode` created the node, `[]` for the
root node made in the constructor. -/
structure TraceNode where
  fieldName : String := ""
  index : Nat := 0
  type : String := ""
  parentType : String := ""
  startTime : Nat := 0
  endTime : Nat := 0
  child : List Nat := []
  error : List TraceError := []
  originPath : List PathSeg := []

/-- The tracer state owned by one `EngineReportingExtension`: the node arena
(node id = list position) and the path-string registry `nodes : Map<string,
Trace.Node>`, most recent binding first. -/
structure BState where
  nodes : List TraceNode
  registry : List (String × Nat)

/-- Lookup in the registry: the most recent binding for a key, mirroring
`Map.prototype.get`. -/
def regLookup : List (String × Nat) → String → Option Nat
  | [], _ => none
  | (k, v) :: rest, q => if q = k then some v else regLookup rest q

/-- The constructor of `EngineReportingExtension`: allocate the root node and
seed the registry with it under the key of the `undefined` path. -/
def initBState : BState :=
  { nodes := [{ : TraceNode }], registry := [(responsePathAsString [], 0)] }

/-- The fresh `Trace.Node` allocated by `newNode`: the terminal segment of
the path becomes either `index` or `fieldName`. -/
def mkNodeForSeg (seg : PathSeg) (p : List PathSeg) : TraceNode :=
  match seg with
  | .index i => { index := i, originPath := p }
  | .field n => { fieldName := n, originPath := p }

/-- Append `nid` to the child list of the node at arena position `pid`. -/
def pushChildAux (nid : Nat) : Nat → List TraceNode → List TraceNode
  | _, [] => []
  | 0, n :: ns => { n with child := n.child ++ [nid] } :: ns
  | p + 1, n :: ns => n :: pushChildAux nid p ns

/-- `parentNode.child.push(node)` on the arena. -/
def pushChild (pid nid : Nat) (st : BState) : BState :=
  { st with nodes := pushChildAux nid pid st.nodes }

mutual

/-- `newNode(path)`: allocate a node for the (nonempty) path `seg :: rest`,
register it under the path string, locate or lazily construct the parent via
`ensureParentNode`, and append the new node to the parent child list.
Returns the new node id.  `none` models a crash of the original code. -/
def newNode (seg : PathSeg) (rest : List PathSeg) (st : BState) :
    Option (Nat × BState) :=
  let nid := st.nodes.length
  let st1 : BState :=
    { nodes := st.nodes ++ [mkNodeForSeg seg (seg :: rest)],
      registry := (responsePathAsString (seg :: rest), nid) :: st.registry }
  match ensureParentNode rest st1 with
  | none => none
  | some (pid, st2) => some (nid, pushChild pid nid st2)
termination_by 2 * rest.length + 1

/-- `ensureParentNode(path)`: look up the parent path string (here `rest` is
already `path.prev`); if registered, return that node, otherwise construct
it recursively via `newNode`.  The `rest = []` miss case corresponds to the
non-null assertion `path.prev!` failing, which cannot happen once the root
is seeded: it is modelled as `none`. -/
def ensureParentNode (rest : List PathSeg) (st : BState) :
    Option (Nat × BState) :=
  match regLookup st.registry (responsePathAsString rest) with
  | some pid => some (pid, st)
  | none =>
    match rest with
    | [] => none
    | s :: r => newNode s r st
termination_by 2 * rest.length

end

/-- A stream of field-resolve start events, each carrying the (nonempty,
leaf-first) response path of the field; processing an event is the `newNode`
call performed by `willResolveField`. -/
def processEvents : List (PathSeg × List PathSeg) → BState → Option BState
  | [], st => some st
  | e :: es, st =>
    match newNode e.1 e.2 st with
    | none => none
    | some (_, st') => processEvents es st'

/-- Result of the user-supplied `rewriteError` hook.  In TypeScript the hook
returns `GraphQLError | null | <anything else>`; `nullResult` is an explicit
`null`, `nonError` any returned value that is not a `GraphQLError` instance,
and `err` a returned `GraphQLError`. -/
inductive RewriteResult where
  | nullResult
  | nonError
  | err (e : GQLError)

/-- The `sendHeaders` reporting option: `\x7b except: [...] \x7d` or
`\x7b safelistAll: bool \x7d`. -/
inductive SendHeadersPolicy where
  | except (l : List String)
  | safelistAll (b : Bool)

/-- The deprecated `privateHeaders` / `privateVariables` option shape:
a list of names or a boolean. -/
inductive LegacyNames where
  | list (l : List String)
  | bool (b : Bool)

/-- The `sendVariableValues` option: exactly one of a custom value-modifier
function, `safelistAll`, or `exceptVariableNames`.  The modifier receives the
full variable mapping and the original operation string. -/
inductive VariableValueOptions where
  | valueModifier
      (f : List (String × JSValue) → Option String → List (String × JSValue))
  | safelistAll (b : Bool)
  | exceptVariableNames (names : List String)

/-- The options relevant to the claims, mirroring `EngineReportingOptions`. -/
structure EngineReportingOptions where
  rewriteError : Option (GQLError → RewriteResult) := none
  sendHeaders : Option SendHeadersPolicy := none
  privateHeaders : Option LegacyNames := none
  sendVariableValues : Option VariableValueOptions := none

/-- The shadow copy `Object.assign(Object.create(Object.getPrototypeOf(err)),
err)` taken before the user hook runs: a field-by-field copy of the error
carrying the same prototype. -/
def cloneError (e : GQLError) : GQLError :=
  { message := e.message, nodes := e.nodes, source := e.source,
    positions := e.positions, path := e.path,
    originalError := e.originalError, extensions := e.extensions,
    locations := e.locations }

/-- `rewriteError`: with no hook configured, report the error as is.  With a
hook, run it on a shadow copy; explicit `null` buries the error (`none`),
a non-`GraphQLError` return reports the original unmodified, and a returned
`GraphQLError` contributes only its `message` and `extensions` (the latter
falling back to the original extensions when falsy), every other field
coming from the pre-rewrite error. -/
def rewriteError (options : EngineReportingOptions) (err : GQLError) :
    Option GQLError :=
  match options.rewriteError with
  | none => some err
  | some hook =>
    match hook (cloneError err) with
    | .nullResult => none
    | .nonError => some err
    | .err rewrittenError =>
      some { message := rewrittenError.message,
             nodes := err.nodes,
             source := err.source,
             positions := err.positions,
             path := err.path,
             originalError := err.originalError,
             extensions :=
               match rewrittenError.extensions with
               | some x => some x
               | none => err.extensions,
             locations := err.locations }

/-- Append a `Trace.Error` to the error list of the node at `pid`. -/
def pushErrorAux (te : TraceError) : Nat → List TraceNode → List TraceNode
  | _, [] => []
  | 0, n :: ns => { n with error := n.error ++ [te] } :: ns
  | p + 1, n :: ns => n :: pushErrorAux te p ns

/-- `addError`: attach an error to the node found under its path string
(`error.path.join(".")`, the path being root-first), falling back to the
root node when the error has no path or the path is unregistered.  The
`none` result models the non-null assertion `node!` failing, impossible once
the root is seeded. -/
def addError (error : GQLError) (st : BState) : Option BState :=
  let rootNode := regLookup st.registry ""
  let node :=
    match error.path with
    | some p =>
      match regLookup st.registry (String.intercalate "." (p.map segToString)) with
      | some specificNode => some specificNode
      | none => rootNode
    | none => rootNode
  match node with
  | none => none
  | some nid =>
    some { st with
      nodes := pushErrorAux
        { message := error.message,
          location := error.locations,
          json := error } nid st.nodes }

/-- `didEncounterErrors`: rewrite each error via the hook; a `null` rewrite
drops the error from the trace, otherwise attach the (possibly rewritten)
error. -/
def didEncounterErrors (options : EngineReportingOptions)
    (errors : List GQLError) (st : BState) : Option BState :=
  errors.foldl
    (fun acc err =>
      match acc with
      | none => none
      | some s =>
        match rewriteError options err with
        | none => some s
        | some errorForReporting => addError errorForReporting s)
    (some st)

/-- JSON string escaping of one character, as in `JSON.stringify`. -/
def jsonEscapeChar (c : Char) : String :=
  if c = '"' then "\\\""
  else if c = '\\' then "\\\\"
  else if c = '\n' then "\\n"
  else if c = '\t' then "\\t"
  else if c = '\r' then "\\r"
  else if c.toNat < 32 then
    "\\u00" ++ String.mk [Nat.digitChar (c.toNat / 16), Nat.digitChar (c.toNat % 16)]
  else String.singleton c

/-- JSON encoding of a string literal (quotes included). -/
def jsonQuote (s : String) : String :=
  "\"" ++ String.join (s.data.map jsonEscapeChar) ++ "\""

mutual

/-- `JSON.stringify` on a variable value; `none` models a thrown
`TypeError` (a cyclic value somewhere inside).  A top-level `undefined`
cannot reach this function in `makeTraceDetails` because of the preceding
nullish check. -/
def jsonStringify : JSValue → Option String
  | .nullV => some "null"
  | .undefinedV => none
  | .boolV true => some "true"
  | .boolV false => some "false"
  | .numV n => some (toString n)
  | .strV s => some (jsonQuote s)
  | .arrV xs =>
    match jsonArrParts xs with
    | none => none
    | some parts => some ("[" ++ String.intercalate "," parts ++ "]")
  | .objV fs =>
    match jsonObjParts fs with
    | none => none
    | some parts => some ("\x7b" ++ String.intercalate "," parts ++ "\x7d")
  | .cyclicV => none

/-- Encodings of array elements; `undefined` elements encode as `null`. -/
def jsonArrParts : List JSValue → Option (List String)
  | [] => some []
  | v :: vs =>
    let part :=
      match v with
      | .undefinedV => some "null"
      | _ => jsonStringify v
    match part, jsonArrParts vs with
    | some s, some rest => some (s :: rest)
    | _, _ => none

/-- Encodings of object entries; entries with `undefined` values are
dropped. -/
def jsonObjParts : List (String × JSValue) → Option (List String)
  | [] => some []
  | (k, v) :: fs =>
    match v with
    | .undefinedV => jsonObjParts fs
    | _ =>
      match jsonStringify v, jsonObjParts fs with
      | some s, some rest => some ((jsonQuote k ++ ":" ++ s) :: rest)
      | _, _ => none

end

/-- The JavaScript loose comparison `value == null`, true exactly for `null`
and `undefined`. -/
def isNullish : JSValue → Bool
  | .nullV => true
  | .undefinedV => true
  | _ => false

/-- Indexing a JavaScript object: an absent key reads as `undefined`. -/
def recordGet (r : List (String × JSValue)) (k : String) : JSValue :=
  match r.find? (fun p => p.1 = k) with
  | some p => p.2
  | none => .undefinedV

/-- Helper for `makeTraceDetails` to enforce that the keys of a modified
`variables` match those of the original: assign, for each original key, the
value the modifier returned for it (reading `undefined` for keys the
modifier omitted — the assignment still creates the key). -/
def cleanModifiedVariables (originalKeys : List String)
    (modifiedVariables : List (String × JSValue)) : List (String × JSValue) :=
  originalKeys.map (fun name => (name, recordGet modifiedVariables name))

/-- The `Trace.Details` message: the redacted variables map. -/
structure TraceDetails where
  variablesJson : List (String × String)
deriving DecidableEq, Repr

/-- Does the redaction condition of `makeTraceDetails` fire for `name`:
`sendVariableValues == null`, or `safelistAll` false, or the name is in
`exceptVariableNames`. -/
def redactsVariable (sendVariableValues : Option VariableValueOptions)
    (name : String) : Bool :=
  match sendVariableValues with
  | none => true
  | some (.safelistAll b) => !b
  | some (.exceptVariableNames names) => names.contains name
  | some (.valueModifier _) => false

/-- `makeTraceDetails`: build trace details from request variables under the
configured redaction policy.  Redacted variables record the empty string;
nullish values record the empty string; otherwise the JSON encoding of the
value, with an encoding failure recovered by recording the JSON-encoded
sentinel string.  A configured value modifier first replaces the variable
mapping, cleaned back to the original key set.  Keys are assumed unique, as
they are on a JavaScript object.  The source parameter named `variables` is
called `vars` here because that word is reserved in Lean. -/
def makeTraceDetails (vars : List (String × JSValue))
    (sendVariableValues : Option VariableValueOptions)
    (operationString : Option String) : TraceDetails :=
  let variablesToRecord :=
    match sendVariableValues with
    | some (.valueModifier f) =>
      cleanModifiedVariables (vars.map Prod.fst)
        (f vars operationString)
    | _ => vars
  { variablesJson :=
      variablesToRecord.map (fun p =>
        (p.1,
          if redactsVariable sendVariableValues p.1 then ""
          else if isNullish p.2 then ""
          else
            match jsonStringify p.2 with
            | some s => s
            | none => jsonQuote "[Unable to convert value to JSON]")) }

/-- `makeTraceDetailsLegacy`: wrap the deprecated `privateVariables` option
into the new shape and defer to `makeTraceDetails`. -/
def makeTraceDetailsLegacy (vars : List (String × JSValue))
    (privateVariables : LegacyNames) : TraceDetails :=
  let newArguments : VariableValueOptions :=
    match privateVariables with
    | .list l => .exceptVariableNames l
    | .bool b => .safelistAll (!b)
  makeTraceDetails vars (some newArguments) none

/-- Lower-casing as used on header names (`toLowerCase` in the source,
ASCII on the names involved), implemented character-wise so that concrete
examples evaluate. -/
def strLower (s : String) : String := String.mk (s.data.map Char.toLower)

/-- Iterating a fetch-API `Headers` object (`apollo-server-env`): header
names are normalized to lower case when stored, so iteration yields
lower-cased keys. -/
def headersEntries (headers : List (String × String)) :
    List (String × String) :=
  headers.map (fun p => (strLower p.1, p.2))

/-- `makeHTTPRequestHeaders`: record request headers on the trace under the
`sendHeaders` policy.  No policy, or `safelistAll: false`, records nothing;
otherwise each header is recorded unless its name matches the `except` list
case-insensitively, with `authorization`, `cookie` and `set-cookie` always
withheld.  The recorded value is the protobuf `Values \x7b value: [v] \x7d`,
modelled as a singleton list. -/
def makeHTTPRequestHeaders (headers : List (String × String))
    (sendHeaders : Option SendHeadersPolicy) : List (String × List String) :=
  match sendHeaders with
  | none => []
  | some (.safelistAll false) => []
  | some policy =>
    (headersEntries headers).filterMap (fun kv =>
      if (match policy with
          | .except l => l.any (fun e => strLower e = strLower kv.1)
          | .safelistAll _ => false) then
        none
      else if kv.1 = "authorization" ∨ kv.1 = "cookie" ∨ kv.1 = "set-cookie" then
        none
      else some (kv.1, [kv.2]))

/-- `makeHTTPRequestHeadersLegacy`: wrap the deprecated `privateHeaders`
option into the new shape and defer to `makeHTTPRequestHeaders`. -/
def makeHTTPRequestHeadersLegacy (headers : List (String × String))
    (privateHeaders : LegacyNames) : List (String × List String) :=
  let sendHeaders : SendHeadersPolicy :=
    match privateHeaders with
    | .list l => .except l
    | .bool b => .safelistAll (!b)
  makeHTTPRequestHeaders headers (some sendHeaders)

/-- The request-scoped metrics of the surrounding pipeline
(`requestContext.metrics`). -/
structure Metrics where
  responseCacheHit : Bool := false
  forbiddenOperation : Bool := false
  registeredOperation : Bool := false
  persistedQueryHit : Bool := false
  persistedQueryRegister : Bool := false
deriving DecidableEq, Repr

/-- The boolean summary flags of the completed trace. -/
structure TraceFlags where
  fullQueryCacheHit : Bool
  forbiddenOperation : Bool
  registeredOperation : Bool
  persistedQueryHit : Bool
  persistedQueryRegister : Bool
deriving DecidableEq, Repr

/-- The boolean summary flags as computed by `requestDidStart` and its end
handler.  Faithful to the source: `persistedQueryHit` and
`persistedQueryRegister` are set during `requestDidStart`, and only inside
the branch guarded by `options.sendHeaders || options.privateHeaders !=
null`; the cache/forbidden/registered flags are set in the end handler from
the metrics as they read at request end. -/
def requestTraceFlags (options : EngineReportingOptions)
    (metricsAtStart metricsAtEnd : Metrics) : TraceFlags :=
  let headerPolicyPresent :=
    options.sendHeaders.isSome || options.privateHeaders.isSome
  { persistedQueryHit := headerPolicyPresent && metricsAtStart.persistedQueryHit,
    persistedQueryRegister :=
      headerPolicyPresent && metricsAtStart.persistedQueryRegister,
    fullQueryCacheHit := metricsAtEnd.responseCacheHit,
    forbiddenOperation := metricsAtEnd.forbiddenOperation,
    registeredOperation := metricsAtEnd.registeredOperation }

/-! Basic lemmas about path strings and the registry. -/

theorem intercalate_go_snoc (s x : String) (as : List String) :
    ∀ acc, String.intercalate.go acc s (as ++ [x]) =
      String.intercalate.go acc s as ++ s ++ x := by
  induction as with
  | nil => intro acc; simp [String.intercalate.go]
  | cons a as ih => intro acc; simp [String.intercalate.go, ih]

theorem intercalate_snoc (l : List String) (x : String) :
    String.intercalate "." (l ++ [x]) =
      if l = [] then x else String.intercalate "." l ++ "." ++ x := by
  cases l with
  | nil => simp [String.intercalate, String.intercalate.go]
  | cons a as =>
    simp only [List.cons_append, String.intercalate, intercalate_go_snoc]
    rw [if_neg (by simp)]

theorem responsePathAsString_cons (s : PathSeg) (r : List PathSeg) :
    responsePathAsString (s :: r) =
      if r = [] then segToString s
      else responsePathAsString r ++ "." ++ segToString s := by
  unfold responsePathAsString
  rw [List.reverse_cons, List.map_append]
  simp only [List.map_cons, List.map_nil]
  rw [intercalate_snoc]
  cases h : r.reverse.map segToString with
  | nil =>
    have hr : r = [] := by
      cases r with
      | nil => rfl
      | cons b bs => simp at h
    simp [hr]
  | cons b bs =>
    have hr : r ≠ [] := by
      intro hr; subst hr; simp at h
    simp [hr, ← h]

theorem responsePathAsString_nil : responsePathAsString [] = "" := rfl

theorem length_responsePathAsString_cons (s : PathSeg) (r : List PathSeg) :
    (responsePathAsString (s :: r)).length =
      if r = [] then (segToString s).length
      else (responsePathAsString r).length + 1 + (segToString s).length := by
  rw [responsePathAsString_cons]
  rcases Decidable.em (r = []) with hr | hr
  · simp [hr]
  · have hdot : ("." : String).length = 1 := rfl
    simp [hr, String.length_append, hdot]

theorem klen_le_cons (s : PathSeg) (r : List PathSeg) :
    (responsePathAsString r).length ≤ (responsePathAsString (s :: r)).length := by
  rw [length_responsePathAsString_cons]
  rcases Decidable.em (r = []) with h | h
  · simp [h, responsePathAsString_nil]
  · simp [h]; omega

theorem klen_lt_cons_of_ne_nil (s : PathSeg) (r : List PathSeg) (h : r ≠ []) :
    (responsePathAsString r).length < (responsePathAsString (s :: r)).length := by
  rw [length_responsePathAsString_cons]
  simp [h]; omega

theorem klen_lt_cons_of_seg_ne (s : PathSeg) (r : List PathSeg)
    (h : segToString s ≠ "") :
    (responsePathAsString r).length < (responsePathAsString (s :: r)).length := by
  have hdata : (segToString s).data ≠ [] := by
    intro hd
    exact h (String.ext (by simp [hd]))
  have hs : 0 < (segToString s).length := List.length_pos.mpr hdata
  rcases Decidable.em (r = []) with hr | hr
  · subst hr
    rw [length_responsePathAsString_cons]
    rw [if_pos rfl]
    have h0 : (responsePathAsString []).length = 0 := rfl
    omega
  · exact Nat.lt_of_le_of_lt (Nat.le_refl _) (klen_lt_cons_of_ne_nil s r hr)

theorem regLookup_mem {reg : List (String × Nat)} {q : String} {v : Nat}
    (h : regLookup reg q = some v) : (q, v) ∈ reg := by
  induction reg with
  | nil => simp [regLookup] at h
  | cons p rest ih =>
    obtain ⟨k, w⟩ := p
    by_cases hq : q = k
    · subst hq
      simp [regLookup] at h
      simp [h]
    · simp [regLookup, hq] at h
      exact List.mem_cons_of_mem _ (ih h)

theorem regLookup_append_of_ne {adds reg : List (String × Nat)} {q : String}
    (h : ∀ p ∈ adds, p.1 ≠ q) :
    regLookup (adds ++ reg) q = regLookup reg q := by
  induction adds with
  | nil => rfl
  | cons p rest ih =>
    obtain ⟨k, w⟩ := p
    have hk : q ≠ k := fun hq => h (k, w) (by simp) (by simp [hq])
    simp only [List.cons_append, regLookup, if_neg hk]
    exact ih (fun p hp => h p (List.mem_cons_of_mem _ hp))

/-! Arena lemmas: child pushes, child occurrence counts, reachability. -/

theorem length_pushChildAux (nid : Nat) :
    ∀ (p : Nat) (ns : List TraceNode),
      (pushChildAux nid p ns).length = ns.length := by
  intro p
  induction p with
  | zero => intro ns; cases ns <;> simp [pushChildAux]
  | succ q ih => intro ns; cases ns <;> simp [pushChildAux, ih]

theorem get?_pushChildAux_self (nid : Nat) :
    ∀ (p : Nat) (ns : List TraceNode), p < ns.length →
      (pushChildAux nid p ns).get? p =
        (ns.get? p).map (fun n => { n with child := n.child ++ [nid] }) := by
  intro p
  induction p with
  | zero =>
    intro ns h
    cases ns with
    | nil => simp at h
    | cons n rest => simp [pushChildAux]
  | succ q ih =>
    intro ns h
    cases ns with
    | nil => simp at h
    | cons n rest =>
      simp only [pushChildAux, List.get?]
      exact ih rest (by simpa using h)

theorem get?_pushChildAux_ne (nid : Nat) :
    ∀ (p i : Nat) (ns : List TraceNode), i ≠ p →
      (pushChildAux nid p ns).get? i = ns.get? i := by
  intro p
  induction p with
  | zero =>
    intro i ns h
    cases ns with
    | nil => simp [pushChildAux]
    | cons n rest =>
      cases i with
      | zero => exact absurd rfl h
      | succ k => simp [pushChildAux]
  | succ q ih =>
    intro i ns h
    cases ns with
    | nil => simp [pushChildAux]
    | cons n rest =>
      cases i with
      | zero => simp [pushChildAux]
      | succ k =>
        simp only [pushChildAux, List.get?]
        exact ih k rest (fun hk => h (by simp [hk]))

/-- Total number of occurrences of `j` in the child lists of an arena. -/
def ccList (ns : List TraceNode) (j : Nat) : Nat :=
  (ns.map (fun n => n.child.count j)).sum

/-- Total number of occurrences of node id `j` as a child in the state. -/
def childCount (st : BState) (j : Nat) : Nat :=
  ccList st.nodes j

theorem ccList_append (a b : List TraceNode) (j : Nat) :
    ccList (a ++ b) j = ccList a j + ccList b j := by
  simp [ccList]

theorem count_singleton_nat (a b : Nat) :
    ([a] : List Nat).count b = if b = a then 1 else 0 := by
  by_cases h : b = a <;> simp [h, List.count_cons]

theorem ccList_cons (n : TraceNode) (rest : List TraceNode) (j : Nat) :
    ccList (n :: rest) j = n.child.count j + ccList rest j := by
  simp [ccList]

theorem ccList_pushChildAux (nid j : Nat) :
    ∀ (p : Nat) (ns : List TraceNode),
      ccList (pushChildAux nid p ns) j =
        ccList ns j + (if p < ns.length ∧ j = nid then 1 else 0) := by
  intro p
  induction p with
  | zero =>
    intro ns
    cases ns with
    | nil => simp [pushChildAux, ccList]
    | cons n rest =>
      show ccList ({ n with child := n.child ++ [nid] } :: rest) j = _
      rw [ccList_cons, ccList_cons]
      simp only [List.count_append, count_singleton_nat]
      by_cases hj : j = nid
      · rw [if_pos hj, if_pos ⟨by simp, hj⟩]
        omega
      · rw [if_neg hj, if_neg (by simp [hj])]
        omega
  | succ q ih =>
    intro ns
    cases ns with
    | nil => simp [pushChildAux, ccList]
    | cons n rest =>
      show ccList (n :: pushChildAux nid q rest) j = _
      rw [ccList_cons, ccList_cons, ih rest]
      have hcond : (q < rest.length ∧ j = nid) ↔
          (q + 1 < (n :: rest).length ∧ j = nid) := by
        simp
      by_cases hc : q < rest.length ∧ j = nid
      · rw [if_pos hc, if_pos (hcond.mp hc)]
        omega
      · rw [if_neg hc, if_neg (fun hx => hc (hcond.mpr hx))]
        omega

/-- Reachability from the root node (arena id 0) along child edges. -/
inductive Reachable (st : BState) : Nat → Prop where
  | root : Reachable st 0
  | child {i j : Nat} {n : TraceNode} (hi : Reachable st i)
      (hn : st.nodes.get? i = some n) (hj : j ∈ n.child) : Reachable st j

/-- One state extends another when the arena only grew and existing nodes
only gained children (their other fields are irrelevant to reachability). -/
def ChildExt (st st' : BState) : Prop :=
  st.nodes.length ≤ st'.nodes.length ∧
  ∀ i a, st.nodes.get? i = some a →
    ∃ b, st'.nodes.get? i = some b ∧ ∃ ex, b.child = a.child ++ ex

theorem ChildExt.refl (st : BState) : ChildExt st st :=
  ⟨Nat.le_refl _, fun _ a ha => ⟨a, ha, [], by simp⟩⟩

theorem ChildExt.trans {s1 s2 s3 : BState} (h12 : ChildExt s1 s2)
    (h23 : ChildExt s2 s3) : ChildExt s1 s3 := by
  refine ⟨Nat.le_trans h12.1 h23.1, fun i a ha => ?_⟩
  obtain ⟨b, hb, ex1, hex1⟩ := h12.2 i a ha
  obtain ⟨c, hc, ex2, hex2⟩ := h23.2 i b hb
  exact ⟨c, hc, ex1 ++ ex2, by rw [hex2, hex1, List.append_assoc]⟩

theorem Reachable.mono {st st' : BState} (h : ChildExt st st') {i : Nat}
    (hr : Reachable st i) : Reachable st' i := by
  induction hr with
  | root => exact .root
  | child hi hn hj ih =>
    obtain ⟨b, hb, ex, hex⟩ := h.2 _ _ hn
    exact .child ih hb (by rw [hex]; exact List.mem_append_left _ hj)

theorem childExt_append_node (st : BState) (n : TraceNode)
    (reg : List (String × Nat)) :
    ChildExt st { nodes := st.nodes ++ [n], registry := reg } := by
  refine ⟨by simp, fun i a ha => ⟨a, ?_, [], by simp⟩⟩
  have hi : i < st.nodes.length := by
    by_contra hge
    rw [List.get?_eq_none.mpr (Nat.le_of_not_lt hge)] at ha
    exact Option.noConfusion ha
  simpa using (List.get?_append hi ▸ ha : (st.nodes ++ [n]).get? i = some a)

theorem childExt_pushChild (pid nid : Nat) (st : BState) :
    ChildExt st (pushChild pid nid st) := by
  refine ⟨by simp [pushChild, length_pushChildAux], fun i a ha => ?_⟩
  by_cases hip : i = pid
  · subst hip
    have hi : i < st.nodes.length := by
      by_contra hge
      rw [List.get?_eq_none.mpr (Nat.le_of_not_lt hge)] at ha
      exact Option.noConfusion ha
    refine ⟨{ a with child := a.child ++ [nid] }, ?_, [nid], by simp⟩
    show (pushChildAux nid i st.nodes).get? i = _
    rw [get?_pushChildAux_self nid i st.nodes hi, ha]
    rfl
  · exact ⟨a, by
      show (pushChildAux nid pid st.nodes).get? i = some a
      rw [get?_pushChildAux_ne nid pid i st.nodes hip]; exact ha, [], by simp⟩

theorem childExt_set_registry (st : BState) (reg : List (String × Nat)) :
    ChildExt st { st with registry := reg } :=
  ⟨Nat.le_refl _, fun _ a ha => ⟨a, ha, [], by simp⟩⟩

/-- All child ids stored in the arena are valid arena positions. -/
def childValid (st : BState) : Prop :=
  ∀ i n, st.nodes.get? i = some n → ∀ j ∈ n.child, j < st.nodes.length

theorem ccList_eq_zero_of_ge {ns : List TraceNode} {j : Nat}
    (h : ∀ n ∈ ns, j ∉ n.child) : ccList ns j = 0 := by
  induction ns with
  | nil => rfl
  | cons n rest ih =>
    rw [ccList_cons]
    rw [List.count_eq_zero.mpr (h n (by simp)), ih (fun m hm => h m (by simp [hm]))]

theorem childCount_eq_zero_of_fresh {st : BState} {j : Nat}
    (hcv : childValid st) (hj : st.nodes.length ≤ j) : childCount st j = 0 := by
  apply ccList_eq_zero_of_ge
  intro n hn hjn
  obtain ⟨i, hi⟩ := List.get_of_mem hn
  have := hcv i n (by rw [List.get?_eq_get i.isLt]; rw [hi]) j hjn
  omega

/-! Registrations performed by `newNode`/`ensureParentNode`: the new entries
prepend to the registry, their keys are no longer than the key of the path
being ensured, and the node just created stays looked-up under its own path
key.  These facts need no precondition on the state. -/

/-- Postcondition of `ensureParentNode rest st` used for idempotence. -/
def EnsurePost (rest : List PathSeg) (st : BState) : Prop :=
  ∀ pid st', ensureParentNode rest st = some (pid, st') →
    (∃ adds, st'.registry = adds ++ st.registry ∧
      ∀ p ∈ adds, p.1.length ≤ (responsePathAsString rest).length) ∧
    regLookup st'.registry (responsePathAsString rest) = some pid

/-- Postcondition of `newNode seg rest st` used for idempotence. -/
def NewPost (seg : PathSeg) (rest : List PathSeg) (st : BState) : Prop :=
  ∀ nid st', newNode seg rest st = some (nid, st') →
    nid = st.nodes.length ∧
    (∃ adds, st'.registry =
        adds ++ (responsePathAsString (seg :: rest), nid) :: st.registry ∧
      ∀ p ∈ adds, p.1.length ≤ (responsePathAsString rest).length) ∧
    regLookup st'.registry (responsePathAsString (seg :: rest)) = some nid

theorem ensurePost_nil (st : BState) : EnsurePost [] st := by
  intro pid st' h
  rw [ensureParentNode] at h
  cases hl : regLookup st.registry (responsePathAsString []) with
  | none => rw [hl] at h; simp at h
  | some q =>
    rw [hl] at h
    simp only [Option.some.injEq, Prod.mk.injEq] at h
    obtain ⟨hq, hst⟩ := h
    subst hq; subst hst
    exact ⟨⟨[], by simp, by simp⟩, hl⟩

theorem ensure_nil_state (st : BState) (pid : Nat) (st' : BState)
    (h : ensureParentNode [] st = some (pid, st')) :
    st' = st ∧ regLookup st.registry "" = some pid := by
  rw [ensureParentNode] at h
  cases hl : regLookup st.registry (responsePathAsString []) with
  | none => rw [hl] at h; simp at h
  | some q =>
    rw [hl] at h
    simp only [Option.some.injEq, Prod.mk.injEq] at h
    refine ⟨h.2.symm, ?_⟩
    rw [show ("" : String) = responsePathAsString [] from rfl, hl, h.1]

theorem newPost_nil (seg : PathSeg) (st : BState) : NewPost seg [] st := by
  intro nid st' h
  rw [newNode] at h
  cases he : ensureParentNode []
      { nodes := st.nodes ++ [mkNodeForSeg seg [seg]],
        registry :=
          (responsePathAsString [seg], st.nodes.length) :: st.registry } with
  | none => rw [he] at h; simp at h
  | some q =>
    obtain ⟨pid, st2⟩ := q
    rw [he] at h
    simp only [Option.some.injEq, Prod.mk.injEq] at h
    obtain ⟨hnid, hst⟩ := h
    obtain ⟨hst2, -⟩ := ensure_nil_state _ pid st2 he
    subst hst
    refine ⟨hnid.symm, ⟨[], ?_, by simp⟩, ?_⟩
    · show st2.registry = _
      rw [hst2, hnid]
      simp
    · show regLookup st2.registry _ = _
      rw [hst2, hnid]
      simp [regLookup]

theorem selfReg_combo :
    ∀ (m : Nat) (rest : List PathSeg), rest.length ≤ m →
      (∀ st, EnsurePost rest st) ∧ (∀ seg st, NewPost seg rest st) := by
  intro m
  induction m with
  | zero =>
    intro rest hlen
    have hr : rest = [] := by
      cases rest with
      | nil => rfl
      | cons a b => simp at hlen
    subst hr
    exact ⟨fun st => ensurePost_nil st, fun seg st => newPost_nil seg st⟩
  | succ m ih =>
    intro rest hlen
    cases rest with
    | nil => exact ⟨fun st => ensurePost_nil st, fun seg st => newPost_nil seg st⟩
    | cons s r =>
      have hEnsure : ∀ st, EnsurePost (s :: r) st := by
        intro st pid st' h
        rw [ensureParentNode] at h
        cases hl : regLookup st.registry (responsePathAsString (s :: r)) with
        | some q =>
          rw [hl] at h
          simp only [Option.some.injEq, Prod.mk.injEq] at h
          obtain ⟨hq, hst⟩ := h
          subst hst
          exact ⟨⟨[], by simp, by simp⟩, by rw [hl, hq]⟩
        | none =>
          rw [hl] at h
          have h2 : newNode s r st = some (pid, st') := h
          have hrm : r.length ≤ m := by
            simp only [List.length_cons] at hlen
            omega
          have hN := (ih r hrm).2 s st pid st' h2
          obtain ⟨hnid, ⟨adds, hadds, hbound⟩, hlook⟩ := hN
          refine ⟨⟨adds ++ [(responsePathAsString (s :: r), pid)], ?_, ?_⟩, hlook⟩
          · rw [hadds]; simp
          · intro p hp
            rcases List.mem_append.mp hp with hp1 | hp2
            · exact Nat.le_trans (hbound p hp1) (klen_le_cons s r)
            · simp only [List.mem_singleton] at hp2
              rw [hp2]
        
      have hNew : ∀ seg st, NewPost seg (s :: r) st := by
        intro seg st nid st' h
        rw [newNode] at h
        cases he : ensureParentNode (s :: r)
            { nodes := st.nodes ++ [mkNodeForSeg seg (seg :: s :: r)],
              registry :=
                (responsePathAsString (seg :: s :: r), st.nodes.length)
                  :: st.registry } with
        | none => rw [he] at h; simp at h
        | some q =>
          obtain ⟨pid, st2⟩ := q
          rw [he] at h
          simp only [Option.some.injEq, Prod.mk.injEq] at h
          obtain ⟨hnid, hst⟩ := h
          subst hst
          obtain ⟨⟨adds, hadds, hbound⟩, -⟩ := hEnsure _ pid st2 he
          have hreg2 : st2.registry =
              adds ++ (responsePathAsString (seg :: s :: r), st.nodes.length)
                :: st.registry := by
            rw [hadds]
          refine ⟨hnid.symm, ⟨adds, ?_, hbound⟩, ?_⟩
          · show st2.registry = _
            rw [hreg2, hnid]
          · show regLookup st2.registry _ = _
            rw [hreg2]
            rw [regLookup_append_of_ne ?hne]
            · simp [regLookup, hnid]
            · intro p hp hkey
              have hb := hbound p hp
              rw [hkey] at hb
              exact absurd hb (Nat.not_le.mpr (klen_lt_cons_of_ne_nil seg (s :: r) (by simp)))
      exact ⟨hEnsure, hNew⟩

theorem newNode_self_lookup {seg : PathSeg} {rest : List PathSeg}
    {st : BState} {nid : Nat} {st' : BState}
    (h : newNode seg rest st = some (nid, st')) :
    nid = st.nodes.length ∧
    regLookup st'.registry (responsePathAsString (seg :: rest)) = some nid := by
  have := (selfReg_combo rest.length rest (Nat.le_refl _)).2 seg st nid st' h
  exact ⟨this.1, this.2.2⟩

theorem ensureParentNode_self_lookup {rest : List PathSeg}
    {st : BState} {pid : Nat} {st' : BState}
    (h : ensureParentNode rest st = some (pid, st')) :
    regLookup st'.registry (responsePathAsString rest) = some pid :=
  ((selfReg_combo rest.length rest (Nat.le_refl _)).1 st pid st' h).2

theorem ensureParentNode_idem {rest : List PathSeg} {st : BState}
    {pid : Nat} {st' : BState}
    (h : ensureParentNode rest st = some (pid, st')) :
    ensureParentNode rest st' = some (pid, st') := by
  have hl := ensureParentNode_self_lookup h
  cases rest with
  | nil => rw [ensureParentNode, hl]
  | cons s r => rw [ensureParentNode, hl]

/-! Invariant machinery for the tree-shape claims. -/

/-- The empty path key is registered (the constructor guarantees this). -/
def RootReg (st : BState) : Prop := ∃ i, regLookup st.registry "" = some i

/-- All registered entries whose key is no longer than `m` point at valid,
root-reachable nodes.  During a `newNode` call the node being built is
registered but not yet attached; its key is longer than every key the
recursion still looks up, which is what this bound captures. -/
def LowReach (st : BState) (m : Nat) : Prop :=
  ∀ p ∈ st.registry, p.1.length ≤ m →
    p.2 < st.nodes.length ∧ Reachable st p.2

/-- All segments of the path render to nonempty strings; true of every real
GraphQL path, since field names are nonempty and indices render in
decimal. -/
def ValidSegs (p : List PathSeg) : Prop := ∀ s ∈ p, segToString s ≠ ""

theorem LowReach.mono_m {st : BState} {m m' : Nat} (h : LowReach st m)
    (hm : m' ≤ m) : LowReach st m' :=
  fun p hp hlen => h p hp (Nat.le_trans hlen hm)

theorem ne_of_length_ne {a b : String} (h : a.length ≠ b.length) : a ≠ b :=
  fun he => h (he ▸ rfl)

theorem mkNodeForSeg_child (seg : PathSeg) (p : List PathSeg) :
    (mkNodeForSeg seg p).child = [] := by
  cases seg <;> rfl

theorem mkNodeForSeg_error (seg : PathSeg) (p : List PathSeg) :
    (mkNodeForSeg seg p).error = [] := by
  cases seg <;> rfl

theorem arena_get?_lt {ns : List TraceNode} {n : TraceNode} {i : Nat}
    (h : i < ns.length) : (ns ++ [n]).get? i = ns.get? i :=
  List.get?_append h

theorem arena_get?_last (ns : List TraceNode) (n : TraceNode) :
    (ns ++ [n]).get? ns.length = some n := by
  rw [List.get?_append_right (Nat.le_refl _)]
  simp

theorem childValid_append {st : BState} (hcv : childValid st)
    (n : TraceNode) (hn : ∀ j ∈ n.child, j < st.nodes.length)
    (reg : List (String × Nat)) :
    childValid { nodes := st.nodes ++ [n], registry := reg } := by
  intro i a ha j hj
  show j < (st.nodes ++ [n]).length
  rw [List.length_append, List.length_singleton]
  rcases Nat.lt_or_ge i st.nodes.length with hi | hi
  · rw [show ({ nodes := st.nodes ++ [n], registry := reg } : BState).nodes
        = st.nodes ++ [n] from rfl, arena_get?_lt hi] at ha
    exact Nat.lt_succ_of_lt (hcv i a ha j hj)
  · rcases Nat.lt_or_ge i (st.nodes.length + 1) with hi2 | hi2
    · have hieq : i = st.nodes.length := by omega
      subst hieq
      rw [show ({ nodes := st.nodes ++ [n], registry := reg } : BState).nodes
          = st.nodes ++ [n] from rfl, arena_get?_last] at ha
      cases ha
      exact Nat.lt_succ_of_lt (hn j hj)
    · have hnone : (st.nodes ++ [n]).get? i = none := by
        apply List.get?_eq_none.mpr
        rw [List.length_append, List.length_singleton]
        omega
      rw [show ({ nodes := st.nodes ++ [n], registry := reg } : BState).nodes
          = st.nodes ++ [n] from rfl, hnone] at ha
      exact Option.noConfusion ha

theorem childValid_pushChild {st : BState} (hcv : childValid st)
    {pid nid : Nat} (hnid : nid < st.nodes.length) :
    childValid (pushChild pid nid st) := by
  intro i a ha j hj
  show j < (pushChildAux nid pid st.nodes).length
  rw [length_pushChildAux]
  rw [show (pushChild pid nid st).nodes = pushChildAux nid pid st.nodes
    from rfl] at ha
  by_cases hip : i = pid
  · subst hip
    rcases Nat.lt_or_ge i st.nodes.length with hi | hi
    · rw [get?_pushChildAux_self nid i st.nodes hi] at ha
      cases hb : st.nodes.get? i with
      | none => rw [hb] at ha; exact Option.noConfusion ha
      | some b =>
        rw [hb] at ha
        rw [Option.map_some'] at ha
        injection ha with ha
        
        subst ha
        simp only [List.mem_append, List.mem_singleton] at hj
        rcases hj with hj | hj
        · exact hcv i b hb j hj
        · omega
    · have hnone : (pushChildAux nid i st.nodes).get? i = none := by
        apply List.get?_eq_none.mpr
        rw [length_pushChildAux]
        exact hi
      rw [hnone] at ha
      exact Option.noConfusion ha
  · rw [get?_pushChildAux_ne nid pid i st.nodes hip] at ha
    exact hcv i a ha j hj

/-- Tree-shape postcondition of `ensureParentNode rest st`: the state only
grows, the returned parent is a valid reachable node, every freshly created
node is reachable and was pushed as a child exactly once, previously present
nodes gained no new occurrences as children, new registry entries all carry
short keys and point at fresh nodes, and the returned parent stays
looked-up under the parent path key. -/
def EnsureTreePost (rest : List PathSeg) (st : BState) : Prop :=
  ∀ pid st', ensureParentNode rest st = some (pid, st') →
    ChildExt st st' ∧
    pid < st'.nodes.length ∧ Reachable st' pid ∧
    (∃ adds, st'.registry = adds ++ st.registry ∧
      ∀ p ∈ adds, p.1.length ≤ (responsePathAsString rest).length ∧
        st.nodes.length ≤ p.2 ∧ p.2 < st'.nodes.length) ∧
    (∀ i, st.nodes.length ≤ i → i < st'.nodes.length → Reachable st' i) ∧
    childValid st' ∧
    (∀ j, j < st.nodes.length → childCount st' j = childCount st j) ∧
    (∀ j, st.nodes.length ≤ j → j < st'.nodes.length → childCount st' j = 1)

/-- Tree-shape postcondition of `newNode seg rest st`; in addition to the
facts of `EnsureTreePost`, the returned node is the fresh arena position and
it is a child of the node registered, in the new state, under the parent
path key. -/
def NewTreePost (seg : PathSeg) (rest : List PathSeg) (st : BState) : Prop :=
  ∀ nid st', newNode seg rest st = some (nid, st') →
    nid = st.nodes.length ∧
    ChildExt st st' ∧
    nid < st'.nodes.length ∧ Reachable st' nid ∧
    (∃ adds, st'.registry = adds ++ st.registry ∧
      ∀ p ∈ adds, p.1.length ≤ (responsePathAsString (seg :: rest)).length ∧
        st.nodes.length ≤ p.2 ∧ p.2 < st'.nodes.length) ∧
    (∀ i, st.nodes.length ≤ i → i < st'.nodes.length → Reachable st' i) ∧
    childValid st' ∧
    (∀ j, j < st.nodes.length → childCount st' j = childCount st j) ∧
    (∀ j, st.nodes.length ≤ j → j < st'.nodes.length → childCount st' j = 1) ∧
    (∃ pid np, regLookup st'.registry (responsePathAsString rest) = some pid ∧
      st'.nodes.get? pid = some np ∧ nid ∈ np.child)

theorem ensureParentNode_found {rest : List PathSeg} {st : BState} {q : Nat}
    (hl : regLookup st.registry (responsePathAsString rest) = some q) :
    ensureParentNode rest st = some (q, st) := by
  cases rest with
  | nil => rw [ensureParentNode, hl]
  | cons s r => rw [ensureParentNode, hl]

theorem childCount_append_fresh (st : BState) (seg : PathSeg)
    (p : List PathSeg) (reg : List (String × Nat)) (j : Nat) :
    childCount { nodes := st.nodes ++ [mkNodeForSeg seg p], registry := reg } j
      = childCount st j := by
  show ccList (st.nodes ++ [mkNodeForSeg seg p]) j = ccList st.nodes j
  rw [ccList_append]
  have : ccList [mkNodeForSeg seg p] j = 0 := by
    simp [ccList, mkNodeForSeg_child]
  omega

theorem tree_combo :
    ∀ (n : Nat) (rest : List PathSeg), rest.length = n → ValidSegs rest →
      (∀ st, RootReg st →
        LowReach st (responsePathAsString rest).length → childValid st →
        EnsureTreePost rest st) ∧
      (∀ seg, segToString seg ≠ "" → ∀ st, RootReg st →
        LowReach st (responsePathAsString rest).length → childValid st →
        NewTreePost seg rest st) := by
  intro n
  induction n using Nat.strong_induction_on with
  | _ n ih =>
  intro rest hlen hvalid
  have hEnsure : ∀ st, RootReg st →
      LowReach st (responsePathAsString rest).length → childValid st →
      EnsureTreePost rest st := by
    intro st hroot hlow hcv pid st' h
    cases hl : regLookup st.registry (responsePathAsString rest) with
    | some q =>
      rw [ensureParentNode_found hl] at h
      simp only [Option.some.injEq, Prod.mk.injEq] at h
      obtain ⟨hq, hst⟩ := h
      subst hq
      subst hst
      obtain ⟨hlt, hreach⟩ :=
        hlow _ (regLookup_mem hl) (Nat.le_refl _)
      refine ⟨ChildExt.refl st, hlt, hreach, ⟨[], by simp, by simp⟩,
        ?_, hcv, fun j hj => rfl, ?_⟩
      · intro i h1 h2; omega
      · intro j h1 h2; omega
    | none =>
      cases rest with
      | nil =>
        obtain ⟨i, hi⟩ := hroot
        rw [show ("" : String) = responsePathAsString [] from rfl] at hi
        rw [hl] at hi
        exact Option.noConfusion hi
      | cons s r =>
        rw [ensureParentNode, hl] at h
        have hrlt : r.length < n := by
          subst hlen; simp
        have hvr : ValidSegs r := fun x hx => hvalid x (by simp [hx])
        have hvs : segToString s ≠ "" := hvalid s (by simp)
        have hN := ((ih r.length hrlt r rfl hvr).2 s hvs st hroot
          (hlow.mono_m (klen_le_cons s r)) hcv) pid st' h
        obtain ⟨hnid, hExt, hlt, hreach, ⟨adds, hadds, hbound⟩, hnewreach,
          hcv', hpres, hnews, -⟩ := hN
        exact ⟨hExt, hlt, hreach, ⟨adds, hadds, hbound⟩, hnewreach, hcv',
          hpres, hnews⟩
  refine ⟨hEnsure, ?_⟩
  intro seg hseg st hroot hlow hcv nid st' h
  rw [newNode] at h
  cases he : ensureParentNode rest
      { nodes := st.nodes ++ [mkNodeForSeg seg (seg :: rest)],
        registry :=
          (responsePathAsString (seg :: rest), st.nodes.length)
            :: st.registry } with
  | none => rw [he] at h; simp at h
  | some q =>
    obtain ⟨pid, st2⟩ := q
    rw [he] at h
    simp only [Option.some.injEq, Prod.mk.injEq] at h
    obtain ⟨hnid, hst⟩ := h
    subst hnid
    subst hst
    set newnode := mkNodeForSeg seg (seg :: rest) with hnewnode
    set st1 : BState :=
      { nodes := st.nodes ++ [newnode],
        registry :=
          (responsePathAsString (seg :: rest), st.nodes.length)
            :: st.registry } with hst1
    have hklt : (responsePathAsString rest).length <
        (responsePathAsString (seg :: rest)).length :=
      klen_lt_cons_of_seg_ne seg rest hseg
    have hst1len : st1.nodes.length = st.nodes.length + 1 := by
      rw [hst1]; simp
    have hExt01 : ChildExt st st1 := childExt_append_node st newnode _
    have hroot1 : RootReg st1 := by
      obtain ⟨i, hi⟩ := hroot
      refine ⟨i, ?_⟩
      rw [hst1]
      show regLookup ((responsePathAsString (seg :: rest), st.nodes.length)
        :: st.registry) "" = some i
      rw [regLookup, if_neg, hi]
      intro hemp
      rw [← hemp] at hklt
      simp at hklt
    have hlow1 : LowReach st1 (responsePathAsString rest).length := by
      intro p hp hplen
      rw [hst1] at hp
      simp only [List.mem_cons] at hp
      rcases hp with hp | hp
      · exfalso
        rw [hp] at hplen
        simp at hplen
        omega
      · obtain ⟨hplt, hpreach⟩ := hlow p hp hplen
        exact ⟨by rw [hst1len]; omega, hpreach.mono hExt01⟩
    have hcv1 : childValid st1 := by
      rw [hst1]
      exact childValid_append hcv newnode
        (by rw [hnewnode, mkNodeForSeg_child]; simp) _
    have hE := hEnsure st1 hroot1 hlow1 hcv1 pid st2 he
    obtain ⟨hExt12, hpidlt, hpidreach, ⟨adds2, hadds2, hbound2⟩, hnewreach2,
      hcv2, hpres2, hnews2⟩ := hE
    have hnidlt2 : st.nodes.length < st2.nodes.length := by
      have := hExt12.1
      omega
    set stF := pushChild pid st.nodes.length st2 with hstF
    have hExt2F : ChildExt st2 stF := childExt_pushChild pid st.nodes.length st2
    have hstFlen : stF.nodes.length = st2.nodes.length := by
      rw [hstF]
      show (pushChildAux _ _ st2.nodes).length = st2.nodes.length
      exact length_pushChildAux _ _ _
    have hstFreg : stF.registry = st2.registry := rfl
    obtain ⟨a2, ha2⟩ : ∃ a2, st2.nodes.get? pid = some a2 := by
      cases hg : st2.nodes.get? pid with
      | none =>
        rw [List.get?_eq_none] at hg
        omega
      | some a2 => exact ⟨a2, rfl⟩
    have hgetF : stF.nodes.get? pid =
        some { a2 with child := a2.child ++ [st.nodes.length] } := by
      rw [hstF]
      show (pushChildAux _ pid st2.nodes).get? pid = _
      rw [get?_pushChildAux_self _ pid st2.nodes hpidlt, ha2]
      rfl
    have hmemF : st.nodes.length ∈
        ({ a2 with child := a2.child ++ [st.nodes.length] } : TraceNode).child := by
      simp
    have hreachF : Reachable stF st.nodes.length :=
      .child (hpidreach.mono hExt2F) hgetF hmemF
    have hccF : ∀ j, childCount stF j = childCount st2 j +
        (if pid < st2.nodes.length ∧ j = st.nodes.length then 1 else 0) := by
      intro j
      show ccList (pushChildAux _ pid st2.nodes) j = _
      rw [ccList_pushChildAux]
      rfl
    refine ⟨rfl, (hExt01.trans hExt12).trans hExt2F,
      by rw [hstFlen]; omega, hreachF,
      ⟨adds2 ++ [(responsePathAsString (seg :: rest), st.nodes.length)],
        ?_, ?_⟩, ?_, ?_, ?_, ?_, ?_⟩
    · rw [hstFreg, hadds2, hst1]
      simp
    · intro p hp
      rcases List.mem_append.mp hp with hp | hp
      · obtain ⟨hb1, hb2, hb3⟩ := hbound2 p hp
        refine ⟨Nat.le_trans hb1 (Nat.le_of_lt hklt), ?_, ?_⟩
        · rw [hst1len] at hb2; omega
        · rw [hstFlen]; omega
      · simp only [List.mem_singleton] at hp
        rw [hp]
        exact ⟨Nat.le_refl _, Nat.le_refl _, by rw [hstFlen]; omega⟩
    · intro i h1 h2
      rcases Nat.lt_or_ge i (st.nodes.length + 1) with hi | hi
      · have : i = st.nodes.length := by omega
        subst this
        exact hreachF
      · have : st1.nodes.length ≤ i := by rw [hst1len]; omega
        exact (hnewreach2 i this (by rw [hstFlen] at h2; omega)).mono hExt2F
    · exact childValid_pushChild hcv2 hnidlt2
    · intro j hj
      rw [hccF j, if_neg (by omega)]
      have hj1 : j < st1.nodes.length := by rw [hst1len]; omega
      rw [hpres2 j hj1]
      rw [hst1]
      rw [childCount_append_fresh]
      omega
    · intro j h1 h2
      rcases Nat.lt_or_ge j (st.nodes.length + 1) with hj | hj
      · have hjeq : j = st.nodes.length := by omega
        rw [hccF j, if_pos ⟨hpidlt, hjeq⟩]
        have hj1 : j < st1.nodes.length := by rw [hst1len]; omega
        rw [hpres2 j hj1, hst1, childCount_append_fresh, hjeq]
        rw [childCount_eq_zero_of_fresh hcv (Nat.le_refl _)]
      · rw [hccF j, if_neg (by omega)]
        exact hnews2 j (by rw [hst1len]; omega) (by rw [hstFlen] at h2; omega)
    · refine ⟨pid, { a2 with child := a2.child ++ [st.nodes.length] },
        ?_, hgetF, hmemF⟩
      rw [hstFreg]
      exact ensureParentNode_self_lookup he

theorem regLookup_append_some {reg : List (String × Nat)} {q : String}
    {v : Nat} (h : regLookup reg q = some v) :
    ∀ adds : List (String × Nat), ∃ w, regLookup (adds ++ reg) q = some w := by
  intro adds
  induction adds with
  | nil => exact ⟨v, h⟩
  | cons p rest ih =>
    obtain ⟨k, w'⟩ := p
    by_cases hq : q = k
    · exact ⟨w', by simp [regLookup, hq]⟩
    · obtain ⟨w, hw⟩ := ih
      exact ⟨w, by simpa [regLookup, hq] using hw⟩

theorem rootReg_cons {st : BState} (h : RootReg st) (k : String) (v : Nat)
    (nodes : List TraceNode) :
    RootReg { nodes := nodes, registry := (k, v) :: st.registry } := by
  obtain ⟨i, hi⟩ := h
  obtain ⟨w, hw⟩ := regLookup_append_some hi [(k, v)]
  exact ⟨w, hw⟩

theorem total_combo :
    ∀ (n : Nat) (rest : List PathSeg), rest.length = n →
      (∀ st, RootReg st → ∃ pr, ensureParentNode rest st = some pr) ∧
      (∀ seg st, RootReg st → ∃ pr, newNode seg rest st = some pr) := by
  intro n
  induction n using Nat.strong_induction_on with
  | _ n ih =>
  intro rest hlen
  have hEnsure : ∀ st, RootReg st → ∃ pr, ensureParentNode rest st = some pr := by
    intro st hroot
    cases hl : regLookup st.registry (responsePathAsString rest) with
    | some q => exact ⟨(q, st), ensureParentNode_found hl⟩
    | none =>
      cases rest with
      | nil =>
        obtain ⟨i, hi⟩ := hroot
        rw [show ("" : String) = responsePathAsString [] from rfl, hl] at hi
        exact Option.noConfusion hi
      | cons s r =>
        have hrlt : r.length < n := by subst hlen; simp
        obtain ⟨pr, hpr⟩ := ((ih r.length hrlt r rfl).2) s st hroot
        exact ⟨pr, by rw [ensureParentNode, hl]; exact hpr⟩
  refine ⟨hEnsure, ?_⟩
  intro seg st hroot
  have hroot1 : RootReg
      { nodes := st.nodes ++ [mkNodeForSeg seg (seg :: rest)],
        registry :=
          (responsePathAsString (seg :: rest), st.nodes.length)
            :: st.registry } :=
    rootReg_cons hroot _ _ _
  obtain ⟨⟨pid, st2⟩, he⟩ := hEnsure _ hroot1
  refine ⟨(st.nodes.length, pushChild pid st.nodes.length st2), ?_⟩
  rw [newNode, he]

/-- The tracer-state invariant holding at every point between events: the
root key is registered, all registered nodes and in fact all arena nodes are
reachable from the root, child ids are valid, the root is never anyone's
child, and every non-root node occurs exactly once among all child lists. -/
def TracerInv (st : BState) : Prop :=
  RootReg st ∧
  (∀ p ∈ st.registry, p.2 < st.nodes.length ∧ Reachable st p.2) ∧
  (∀ i, i < st.nodes.length → Reachable st i) ∧
  childValid st ∧
  childCount st 0 = 0 ∧
  (∀ j, 0 < j → j < st.nodes.length → childCount st j = 1)

theorem Inv_initBState : TracerInv initBState := by
  refine ⟨⟨0, rfl⟩, ?_, ?_, ?_, rfl, ?_⟩
  · intro p hp
    simp only [initBState, List.mem_singleton] at hp
    rw [hp]
    exact ⟨by simp [initBState], .root⟩
  · intro i hi
    simp only [initBState, List.length_singleton] at hi
    have : i = 0 := by omega
    rw [this]
    exact .root
  · intro i a ha j hj
    simp only [initBState] at ha
    cases i with
    | zero =>
      simp only [List.get?] at ha
      cases ha
      simp at hj
    | succ k =>
      simp [List.get?] at ha
  · intro j h1 h2
    simp only [initBState, List.length_singleton] at h2
    omega

theorem Inv_newNode {seg : PathSeg} {rest : List PathSeg} {st : BState}
    (hInv : TracerInv st) (hvs : segToString seg ≠ "") (hvr : ValidSegs rest) :
    ∃ nid st', newNode seg rest st = some (nid, st') ∧ TracerInv st' ∧
      nid = st.nodes.length ∧ ChildExt st st' ∧
      (∃ pid np,
        regLookup st'.registry (responsePathAsString rest) = some pid ∧
        st'.nodes.get? pid = some np ∧ nid ∈ np.child) := by
  obtain ⟨hroot, hentries, hnodes, hcv, hcc0, hcc1⟩ := hInv
  obtain ⟨⟨nid, st'⟩, h⟩ :=
    (total_combo rest.length rest rfl).2 seg st hroot
  have hlow : LowReach st (responsePathAsString rest).length :=
    fun p hp _ => hentries p hp
  have hpost := ((tree_combo rest.length rest rfl hvr).2 seg hvs st hroot
    hlow hcv) nid st' h
  obtain ⟨hnid, hExt, hnidlt, hnidreach, ⟨adds, hadds, hbound⟩, hnewreach,
    hcv', hpres, hnews, hparent⟩ := hpost
  have hlen0 : 0 < st.nodes.length := by
    obtain ⟨i, hi⟩ := hroot
    have := (hentries _ (regLookup_mem hi)).1
    omega
  refine ⟨nid, st', h, ⟨?_, ?_, ?_, hcv', ?_, ?_⟩, hnid, hExt, hparent⟩
  · obtain ⟨i, hi⟩ := hroot
    obtain ⟨w, hw⟩ := regLookup_append_some hi adds
    exact ⟨w, by rw [hadds]; exact hw⟩
  · intro p hp
    rw [hadds] at hp
    rcases List.mem_append.mp hp with hp | hp
    · obtain ⟨-, hb2, hb3⟩ := hbound p hp
      exact ⟨hb3, hnewreach p.2 hb2 hb3⟩
    · obtain ⟨h1, h2⟩ := hentries p hp
      exact ⟨by have := hExt.1; omega, h2.mono hExt⟩
  · intro i hi
    rcases Nat.lt_or_ge i st.nodes.length with hlt | hge
    · exact (hnodes i hlt).mono hExt
    · exact hnewreach i hge hi
  · rw [hpres 0 hlen0]
    exact hcc0
  · intro j h1 h2
    rcases Nat.lt_or_ge j st.nodes.length with hlt | hge
    · rw [hpres j hlt]
      exact hcc1 j h1 hlt
    · exact hnews j hge h2

theorem Inv_processEvents {events : List (PathSeg × List PathSeg)} :
    ∀ st : BState, TracerInv st →
      (∀ e ∈ events, ValidSegs (e.1 :: e.2)) →
      ∃ st', processEvents events st = some st' ∧ TracerInv st' := by
  induction events with
  | nil => intro st hInv _; exact ⟨st, rfl, hInv⟩
  | cons e es ih =>
    intro st hInv hv
    have hvs : segToString e.1 ≠ "" := hv e (by simp) e.1 (by simp)
    have hvr : ValidSegs e.2 := fun x hx => hv e (by simp) x (by simp [hx])
    obtain ⟨nid, st1, h, hInv1, -, -, -⟩ := Inv_newNode hInv hvs hvr
    obtain ⟨st', hst', hInv'⟩ := ih st1 hInv1
      (fun x hx => hv x (by simp [hx]))
    refine ⟨st', ?_, hInv'⟩
    show processEvents (e :: es) st = some st'
    rw [processEvents, h]
    exact hst'

/-! Facts about the decimal rendering `Nat.repr` used by path keying. -/

theorem toDigitsCore_append (b : Nat) :
    ∀ (fuel n : Nat) (ds : List Char),
      Nat.toDigitsCore b fuel n ds = Nat.toDigitsCore b fuel n [] ++ ds := by
  intro fuel
  induction fuel with
  | zero => intro n ds; simp [Nat.toDigitsCore]
  | succ f ih =>
    intro n ds
    simp only [Nat.toDigitsCore]
    by_cases h : n / b = 0
    · simp [h]
    · simp only [h, if_false]
      rw [ih (n / b) (Nat.digitChar (n % b) :: ds),
        ih (n / b) [Nat.digitChar (n % b)]]
      simp

theorem toDigitsCore_fuel {n : Nat} :
    ∀ f : Nat, n < f →
      Nat.toDigitsCore 10 f n [] = Nat.toDigits 10 n := by
  induction n using Nat.strong_induction_on with
  | _ n ih =>
  intro f hf
  have hstep : ∀ g : Nat, n < g →
      Nat.toDigitsCore 10 g n [] =
        if n / 10 = 0 then [Nat.digitChar (n % 10)]
        else Nat.toDigitsCore 10 (g - 1) (n / 10) [] ++ [Nat.digitChar (n % 10)] := by
    intro g hg
    cases g with
    | zero => omega
    | succ g' =>
      simp only [Nat.toDigitsCore]
      by_cases h : n / 10 = 0
      · simp [h]
      · simp only [h, if_false, Nat.succ_sub_one]
        exact toDigitsCore_append 10 g' (n / 10) [Nat.digitChar (n % 10)]
  by_cases h : n / 10 = 0
  · rw [hstep f hf, if_pos h]
    show _ = Nat.toDigitsCore 10 (n + 1) n []
    rw [hstep (n + 1) (Nat.lt_succ_self n), if_pos h]
  · have hdivlt : n / 10 < n := Nat.div_lt_self (by omega) (by omega)
    rw [hstep f hf, if_neg h]
    show _ = Nat.toDigitsCore 10 (n + 1) n []
    rw [hstep (n + 1) (Nat.lt_succ_self n), if_neg h]
    rw [ih (n / 10) hdivlt (f - 1) (by omega),
      ih (n / 10) hdivlt (n + 1 - 1) (by omega)]

theorem toDigits_unfold (n : Nat) :
    Nat.toDigits 10 n =
      if n < 10 then [Nat.digitChar n]
      else Nat.toDigits 10 (n / 10) ++ [Nat.digitChar (n % 10)] := by
  show Nat.toDigitsCore 10 (n + 1) n [] = _
  simp only [Nat.toDigitsCore]
  by_cases h : n < 10
  · have hdiv : n / 10 = 0 := Nat.div_eq_of_lt h
    simp [hdiv, h, Nat.mod_eq_of_lt h]
  · have hdiv : n / 10 ≠ 0 := by
      intro hz
      have := Nat.div_eq_zero_iff (by omega : 0 < 10) |>.mp hz
      omega
    simp only [hdiv, if_false, h, if_false]
    rw [toDigitsCore_append 10 n (n / 10) [Nat.digitChar (n % 10)]]
    congr 1
    have hdivlt : n / 10 < n := Nat.div_lt_self (by omega) (by omega)
    exact toDigitsCore_fuel n hdivlt

/-- Numeric value of a decimal digit character. -/
def charVal (c : Char) : Nat := c.toNat - 48

/-- Value of a decimal digit string, most significant digit first. -/
def valDigits (l : List Char) : Nat :=
  l.foldl (fun acc c => 10 * acc + charVal c) 0

theorem charVal_digitChar {n : Nat} (h : n < 10) :
    charVal (Nat.digitChar n) = n := by
  interval_cases n <;> rfl

theorem isDigit_digitChar {n : Nat} (h : n < 10) :
    (Nat.digitChar n).isDigit = true := by
  interval_cases n <;> rfl

theorem valDigits_append_digit (l : List Char) (c : Char) :
    valDigits (l ++ [c]) = 10 * valDigits l + charVal c := by
  simp [valDigits, List.foldl_append]

theorem valDigits_toDigits (n : Nat) : valDigits (Nat.toDigits 10 n) = n := by
  induction n using Nat.strong_induction_on with
  | _ n ih =>
  rw [toDigits_unfold]
  by_cases h : n < 10
  · rw [if_pos h]
    show 10 * 0 + charVal (Nat.digitChar n) = n
    rw [charVal_digitChar h]
    omega
  · rw [if_neg h]
    rw [valDigits_append_digit]
    rw [ih (n / 10) (Nat.div_lt_self (by omega) (by omega))]
    rw [charVal_digitChar (Nat.mod_lt n (by omega))]
    omega

theorem toDigits_ne_nil (n : Nat) : Nat.toDigits 10 n ≠ [] := by
  rw [toDigits_unfold]
  by_cases h : n < 10
  · simp [h]
  · simp [h]

theorem toDigits_all_digit (n : Nat) :
    ∀ c ∈ Nat.toDigits 10 n, c.isDigit = true := by
  induction n using Nat.strong_induction_on with
  | _ n ih =>
  rw [toDigits_unfold]
  by_cases h : n < 10
  · rw [if_pos h]
    intro c hc
    simp only [List.mem_singleton] at hc
    rw [hc]
    exact isDigit_digitChar h
  · rw [if_neg h]
    intro c hc
    rcases List.mem_append.mp hc with hc | hc
    · exact ih (n / 10) (Nat.div_lt_self (by omega) (by omega)) c hc
    · simp only [List.mem_singleton] at hc
      rw [hc]
      exact isDigit_digitChar (Nat.mod_lt n (by omega))

theorem repr_injective {m n : Nat} (h : Nat.repr m = Nat.repr n) : m = n := by
  have hd : Nat.toDigits 10 m = Nat.toDigits 10 n := by
    have := congrArg String.data h
    simpa [Nat.repr, List.asString] using this
  have := congrArg valDigits hd
  rwa [valDigits_toDigits, valDigits_toDigits] at this

theorem repr_data (n : Nat) : (Nat.repr n).data = Nat.toDigits 10 n := rfl

theorem repr_ne_empty (n : Nat) : Nat.repr n ≠ "" := by
  intro h
  have := congrArg String.data h
  rw [repr_data] at this
  exact toDigits_ne_nil n this

theorem dot_not_mem_repr (n : Nat) : '.' ∉ (Nat.repr n).data := by
  rw [repr_data]
  intro hmem
  have := toDigits_all_digit n '.' hmem
  simp [Char.isDigit] at this

/-! Injectivity of path keying on well-formed segment names. -/

/-- A segment is well-formed when its rendering is a usable key fragment: a
field name must be nonempty, contain no dot, and not collide with the
decimal rendering of an index.  Real GraphQL field names (which match
`[_A-Za-z][_0-9A-Za-z]*`) satisfy all three. -/
def GoodSeg : PathSeg → Prop
  | .field n => n ≠ "" ∧ '.' ∉ n.data ∧ ∀ i : Nat, n ≠ Nat.repr i
  | .index _ => True

/-- All segments of the path are well-formed. -/
def GoodPath (p : List PathSeg) : Prop := ∀ s ∈ p, GoodSeg s

theorem segToString_index (i : Nat) : segToString (.index i) = Nat.repr i := rfl

theorem goodSeg_ne_empty {s : PathSeg} (h : GoodSeg s) : segToString s ≠ "" := by
  cases s with
  | field n => exact h.1
  | index i => exact repr_ne_empty i

theorem goodSeg_no_dot {s : PathSeg} (h : GoodSeg s) :
    '.' ∉ (segToString s).data := by
  cases s with
  | field n => exact h.2.1
  | index i => exact dot_not_mem_repr i

theorem goodSeg_inj {a b : PathSeg} (ha : GoodSeg a) (hb : GoodSeg b)
    (h : segToString a = segToString b) : a = b := by
  cases a with
  | field n =>
    cases b with
    | field n' => rw [show n = n' from h]
    | index i => exact absurd h (ha.2.2 i)
  | index i =>
    cases b with
    | field n' => exact absurd h.symm (hb.2.2 i)
    | index i' => rw [repr_injective (h : Nat.repr i = Nat.repr i')]

theorem split_at_first_dot :
    ∀ (a1 : List Char) (a2 : List Char) (t1 t2 : List Char),
      '.' ∉ a1 → '.' ∉ a2 →
      a1 ++ '.' :: t1 = a2 ++ '.' :: t2 → a1 = a2 ∧ t1 = t2 := by
  intro a1
  induction a1 with
  | nil =>
    intro a2 t1 t2 h1 h2 he
    cases a2 with
    | nil => simpa using he
    | cons c cs =>
      simp only [List.nil_append, List.cons_append, List.cons.injEq] at he
      exact absurd (by rw [he.1]; simp : ('.' : Char) ∈ c :: cs) h2
  | cons c cs ih =>
    intro a2 t1 t2 h1 h2 he
    cases a2 with
    | nil =>
      simp only [List.nil_append, List.cons_append, List.cons.injEq] at he
      exact absurd (by rw [← he.1]; simp : ('.' : Char) ∈ c :: cs) h1
    | cons c' cs' =>
      simp only [List.cons_append, List.cons.injEq] at he
      obtain ⟨hc, hrest⟩ := he
      have hcs1 : ('.' : Char) ∉ cs := fun hm => h1 (by simp [hm])
      have hcs2 : ('.' : Char) ∉ cs' := fun hm => h2 (by simp [hm])
      obtain ⟨hi1, hi2⟩ := ih cs' t1 t2 hcs1 hcs2 hrest
      exact ⟨by rw [hc, hi1], hi2⟩

theorem split_at_last_dot (x1 x2 y1 y2 : List Char)
    (h1 : '.' ∉ y1) (h2 : '.' ∉ y2)
    (he : x1 ++ '.' :: y1 = x2 ++ '.' :: y2) : x1 = x2 ∧ y1 = y2 := by
  have hr := congrArg List.reverse he
  rw [List.reverse_append, List.reverse_append, List.reverse_cons,
    List.reverse_cons] at hr
  rw [List.append_assoc, List.append_assoc] at hr
  simp only [List.singleton_append] at hr
  have hrev1 : ('.' : Char) ∉ y1.reverse := by simpa using h1
  have hrev2 : ('.' : Char) ∉ y2.reverse := by simpa using h2
  obtain ⟨ha, hb⟩ := split_at_first_dot y1.reverse y2.reverse
    x1.reverse x2.reverse hrev1 hrev2 hr
  constructor
  · have := congrArg List.reverse hb
    simpa using this
  · have := congrArg List.reverse ha
    simpa using this

theorem responsePathAsString_data_cons (s : PathSeg) (r : List PathSeg) :
    (responsePathAsString (s :: r)).data =
      if r = [] then (segToString s).data
      else (responsePathAsString r).data ++ '.' :: (segToString s).data := by
  rw [responsePathAsString_cons]
  rcases Decidable.em (r = []) with h | h
  · simp [h]
  · rw [if_neg h, if_neg h]
    rw [String.data_append, String.data_append]
    simp

theorem responsePathAsString_injective :
    ∀ (p q : List PathSeg), GoodPath p → GoodPath q →
      responsePathAsString p = responsePathAsString q → p = q := by
  intro p
  induction p with
  | nil =>
    intro q hp hq he
    cases q with
    | nil => rfl
    | cons b q' =>
      exfalso
      have hd := congrArg String.data he
      rw [responsePathAsString_data_cons] at hd
      have hne : (segToString b).data ≠ [] := by
        intro hz
        exact goodSeg_ne_empty (hq b (by simp)) (String.ext hz)
      rcases Decidable.em (q' = []) with h | h
      · rw [if_pos h] at hd
        exact hne (by simpa [responsePathAsString_nil] using hd.symm)
      · rw [if_neg h] at hd
        have hz : ([] : List Char) =
            (responsePathAsString q').data ++ '.' :: (segToString b).data := by
          simpa [responsePathAsString_nil] using hd
        exact absurd hz.symm (by simp)
  | cons a p' ih =>
    intro q hp hq he
    cases q with
    | nil =>
      exfalso
      have hd := congrArg String.data he
      rw [responsePathAsString_data_cons] at hd
      have hne : (segToString a).data ≠ [] := by
        intro hz
        exact goodSeg_ne_empty (hp a (by simp)) (String.ext hz)
      rcases Decidable.em (p' = []) with h | h
      · rw [if_pos h] at hd
        exact hne (by simpa [responsePathAsString_nil] using hd)
      · rw [if_neg h] at hd
        have hz : (responsePathAsString p').data ++ '.' :: (segToString a).data
            = ([] : List Char) := by
          simpa [responsePathAsString_nil] using hd
        exact absurd hz (by simp)
    | cons b q' =>
      have hd := congrArg String.data he
      rw [responsePathAsString_data_cons, responsePathAsString_data_cons] at hd
      have hdota : '.' ∉ (segToString a).data := goodSeg_no_dot (hp a (by simp))
      have hdotb : '.' ∉ (segToString b).data := goodSeg_no_dot (hq b (by simp))
      rcases Decidable.em (p' = []) with h1 | h1 <;>
        rcases Decidable.em (q' = []) with h2 | h2
      · rw [if_pos h1, if_pos h2] at hd
        rw [h1, h2,
          goodSeg_inj (hp a (by simp)) (hq b (by simp)) (String.ext hd)]
      · exfalso
        rw [if_pos h1, if_neg h2] at hd
        exact hdota (by rw [hd]; simp)
      · exfalso
        rw [if_neg h1, if_pos h2] at hd
        exact hdotb (by rw [← hd]; simp)
      · rw [if_neg h1, if_neg h2] at hd
        obtain ⟨hx, hy⟩ := split_at_last_dot _ _ _ _ hdota hdotb hd
        have hp' : p' = q' := ih q' (fun x hx => hp x (by simp [hx]))
          (fun x hx => hq x (by simp [hx])) (String.ext hx)
        rw [hp',
          goodSeg_inj (hp a (by simp)) (hq b (by simp)) (String.ext hy)]

/-! Concrete evaluations of the well-founded recursive builders, used by the
closed example theorems (the equation lemmas substitute for definitional
unfolding). -/

theorem eval_newNode_a_init :
    newNode (.field "a") [] initBState =
      some (1,
        { nodes := [{ child := [1] },
            { fieldName := "a", originPath := [PathSeg.field "a"] }],
          registry := [("a", 1), ("", 0)] }) := by
  rw [newNode, ensureParentNode]
  rfl

theorem eval_newNode_a_again :
    newNode (.field "a") []
        { nodes := [{ child := [1] },
            { fieldName := "a", originPath := [PathSeg.field "a"] }],
          registry := [("a", 1), ("", 0)] } =
      some (2,
        { nodes := [{ child := [1, 2] },
            { fieldName := "a", originPath := [PathSeg.field "a"] },
            { fieldName := "a", originPath := [PathSeg.field "a"] }],
          registry := [("a", 2), ("a", 1), ("", 0)] }) := by
  rw [newNode, ensureParentNode]
  rfl

theorem eval_newNode_a_lazy :
    newNode (.field "a") []
        { nodes := [{ : TraceNode },
            { fieldName := "b",
              originPath := [PathSeg.field "b", PathSeg.field "a"] }],
          registry := [("a.b", 1), ("", 0)] } =
      some (2,
        { nodes := [{ child := [2] },
            { fieldName := "b",
              originPath := [PathSeg.field "b", PathSeg.field "a"] },
            { fieldName := "a", originPath := [PathSeg.field "a"] }],
          registry := [("a", 2), ("a.b", 1), ("", 0)] }) := by
  rw [newNode, ensureParentNode]
  rfl

theorem eval_ensure_a_mid :
    ensureParentNode [PathSeg.field "a"]
        { nodes := initBState.nodes ++
            [mkNodeForSeg (PathSeg.field "b")
              [PathSeg.field "b", PathSeg.field "a"]],
          registry :=
            (responsePathAsString [PathSeg.field "b", PathSeg.field "a"],
              initBState.nodes.length) :: initBState.registry } =
      some (2,
        { nodes := [{ child := [2] },
            { fieldName := "b",
              originPath := [PathSeg.field "b", PathSeg.field "a"] },
            { fieldName := "a", originPath := [PathSeg.field "a"] }],
          registry := [("a", 2), ("a.b", 1), ("", 0)] }) := by
  rw [ensureParentNode]
  exact eval_newNode_a_lazy

theorem eval_newNode_ab_init :
    newNode (.field "b") [.field "a"] initBState =
      some (1,
        { nodes := [{ child := [2] },
            { fieldName := "b",
              originPath := [PathSeg.field "b", PathSeg.field "a"],
              child := [] },
            { fieldName := "a", originPath := [PathSeg.field "a"],
              child := [1] }],
          registry := [("a", 2), ("a.b", 1), ("", 0)] }) := by
  rw [newNode, eval_ensure_a_mid]
  rfl

theorem eval_newNode_a_after_ab :
    newNode (.field "a") []
        { nodes := [{ child := [2] },
            { fieldName := "b",
              originPath := [PathSeg.field "b", PathSeg.field "a"],
              child := [] },
            { fieldName := "a", originPath := [PathSeg.field "a"],
              child := [1] }],
          registry := [("a", 2), ("a.b", 1), ("", 0)] } =
      some (3,
        { nodes := [{ child := [2, 3] },
            { fieldName := "b",
              originPath := [PathSeg.field "b", PathSeg.field "a"],
              child := [] },
            { fieldName := "a", originPath := [PathSeg.field "a"],
              child := [1] },
            { fieldName := "a", originPath := [PathSeg.field "a"] }],
          registry := [("a", 3), ("a", 2), ("a.b", 1), ("", 0)] }) := by
  rw [newNode, ensureParentNode]
  rfl

/-! Claim theorems. -/

/-- Claim C1, counterexample.  Process the event for path `a.b` before the
event for path `a`, starting from the constructor state.  The node created
for `a.b` (arena id 1) sits in the child list of the lazily synthesized node
for `a` (arena id 2), but the registry maps the prefix key `"a"` to the node
created by the later explicit event (arena id 3), whose child list is empty.
So, in the final state, a non-root node is not a child of the node
registered under its path prefix, refuting the parenthetical of the claim as
stated; each child list and each origin path is listed explicitly. -/
theorem c1_counterexample :
    (processEvents [(.field "b", [.field "a"]), (.field "a", [])]
        initBState).map
      (fun st =>
        (st.nodes.map TraceNode.child,
         st.nodes.map TraceNode.originPath,
         regLookup st.registry (responsePathAsString [PathSeg.field "a"]))) =
      some ([[2, 3], [], [1], []],
        [[], [.field "b", .field "a"], [.field "a"], [.field "a"]],
        some 3) := by
  simp only [processEvents, eval_newNode_ab_init, eval_newNode_a_after_ab]
  rfl

/-- Claim C1 (amended): for every sequence of field-resolve start events
whose field-name segments render to nonempty strings, the registry seeded by
the constructor holds the root under the empty key; processing the whole
sequence succeeds (the `ensureParentNode` recursion always terminates in a
registered ancestor); in the final state every node is reachable from the
root, the root is in no child list, and every non-root node occurs in
exactly one child list, exactly once; and each event appends its new node to
the child list of the node registered under the path prefix in the state as
left by that very event (not necessarily in the final state). -/
theorem c1_amended_tree_invariants
    (events : List (PathSeg × List PathSeg))
    (hv : ∀ e ∈ events, ValidSegs (e.1 :: e.2)) :
    regLookup initBState.registry (responsePathAsString []) = some 0 ∧
    (∃ st', processEvents events initBState = some st' ∧
      (∀ i, i < st'.nodes.length → Reachable st' i) ∧
      childCount st' 0 = 0 ∧
      (∀ j, 0 < j → j < st'.nodes.length → childCount st' j = 1)) ∧
    (∀ st seg rest, TracerInv st → segToString seg ≠ "" → ValidSegs rest →
      ∃ nid st' pid np, newNode seg rest st = some (nid, st') ∧
        regLookup st'.registry (responsePathAsString rest) = some pid ∧
        st'.nodes.get? pid = some np ∧ nid ∈ np.child) := by
  refine ⟨rfl, ?_, ?_⟩
  · obtain ⟨st', hst', hInv'⟩ :=
      Inv_processEvents initBState Inv_initBState hv
    exact ⟨st', hst', hInv'.2.2.1, hInv'.2.2.2.2.1, hInv'.2.2.2.2.2⟩
  · intro st seg rest hInv hvs hvr
    obtain ⟨nid, st', h, -, -, -, pid, np, h1, h2, h3⟩ :=
      Inv_newNode hInv hvs hvr
    exact ⟨nid, st', pid, np, h, h1, h2, h3⟩

/-- Claim C1 (amended), witness at the one-event sequence for path `a`. -/
theorem c1_amended_tree_invariants_witness :
    ∃ st', processEvents [(PathSeg.field "a", [])] initBState = some st' ∧
      (∀ i, i < st'.nodes.length → Reachable st' i) := by
  obtain ⟨-, ⟨st', h1, h2, -, -⟩, -⟩ :=
    c1_amended_tree_invariants [(PathSeg.field "a", [])] (by
      intro e he s hs
      have he' : e = (PathSeg.field "a", []) := by simpa using he
      subst he'
      have hs' : s = PathSeg.field "a" := by simpa using hs
      subst hs'
      decide)
  exact ⟨st', h1, h2⟩

/-- Claim C2, counterexample.  Invoke `newNode` twice with the same path
`a` (exactly what `willResolveField` does when two start events carry the
same path): the root child list ends up holding the two distinct nodes 1
and 2, both originating from path `a`, refuting the claim that no child
sequence contains two nodes originating from the same path; the registry
retains only the newer node. -/
theorem c2_counterexample :
    ((newNode (.field "a") [] initBState).bind
        (fun pr => newNode (.field "a") [] pr.2)).map
      (fun pr =>
        (pr.2.nodes.map TraceNode.child,
         pr.2.nodes.map TraceNode.originPath,
         regLookup pr.2.registry (responsePathAsString [PathSeg.field "a"]))) =
      some ([[1, 2], [], []], [[], [.field "a"], [.field "a"]], some 2) := by
  simp only [eval_newNode_a_init, Option.some_bind, eval_newNode_a_again]
  rfl

/-- Claim C2 (amended): looking a path up twice through `ensureParentNode`
is idempotent — the second call returns the very same node and state — and
after any successful call the ensured path key is looked up to the returned
node (the registry, a map, holds exactly one binding per key).  Duplicate
nodes arise only from repeated `newNode` calls, per the counterexample. -/
theorem c2_amended_ensure_idempotent (rest : List PathSeg) (st : BState)
    (pid : Nat) (st' : BState)
    (h : ensureParentNode rest st = some (pid, st')) :
    ensureParentNode rest st' = some (pid, st') ∧
    regLookup st'.registry (responsePathAsString rest) = some pid :=
  ⟨ensureParentNode_idem h, ensureParentNode_self_lookup h⟩

/-- Claim C2 (amended), witness: ensuring path `a` from the constructor
state creates node 1; ensuring it again returns node 1 and the unchanged
state. -/
theorem c2_amended_ensure_idempotent_witness :
    ensureParentNode [PathSeg.field "a"]
        { nodes := [{ child := [1] },
            { fieldName := "a", originPath := [PathSeg.field "a"] }],
          registry := [("a", 1), ("", 0)] } =
      some (1,
        { nodes := [{ child := [1] },
            { fieldName := "a", originPath := [PathSeg.field "a"] }],
          registry := [("a", 1), ("", 0)] }) :=
  (c2_amended_ensure_idempotent [PathSeg.field "a"] initBState 1 _ (by
    rw [ensureParentNode]
    exact eval_newNode_a_init)).1

/-- Claim C3: behaviour of the rewrite hook pipeline, for every error and
every hook.  A `null` return leaves the trace state untouched (the error is
recorded zero times) while the error value itself is never altered; a
non-`GraphQLError` return reports the original unmodified; a `GraphQLError`
return contributes exactly its message and extensions (the original
extensions when the returned ones are absent), all remaining fields coming
from the original error; and the hook only ever receives the shadow copy
`cloneError e`, which carries exactly the fields of `e`. -/
theorem c3_rewrite_error_pipeline (hook : GQLError → RewriteResult)
    (e : GQLError) (st : BState) (r : GQLError) :
    (hook (cloneError e) = .nullResult →
      didEncounterErrors { rewriteError := some hook } [e] st = some st) ∧
    (hook (cloneError e) = .nonError →
      rewriteError { rewriteError := some hook } e = some e) ∧
    (hook (cloneError e) = .err r →
      rewriteError { rewriteError := some hook } e =
        some { message := r.message, nodes := e.nodes, source := e.source,
               positions := e.positions, path := e.path,
               originalError := e.originalError,
               extensions :=
                 match r.extensions with
                 | some x => some x
                 | none => e.extensions,
               locations := e.locations }) ∧
    cloneError e = e := by
  refine ⟨?_, ?_, ?_, rfl⟩
  · intro h
    simp [didEncounterErrors, rewriteError, h]
  · intro h
    simp [rewriteError, h]
  · intro h
    simp [rewriteError, h]

/-- Claim C3, witness: a hook returning `null` on the error `boom` records
nothing; a hook returning a non-error reports `boom` unchanged; a hook
returning a rewritten error with no extensions keeps the original
extensions. -/
theorem c3_rewrite_error_pipeline_witness :
    (didEncounterErrors
        { rewriteError := some (fun _ => RewriteResult.nullResult) }
        [{ message := "boom" }] initBState = some initBState) ∧
    (rewriteError { rewriteError := some (fun _ => RewriteResult.nonError) }
        { message := "boom" } = some { message := "boom" }) ∧
    (rewriteError
        { rewriteError :=
            some (fun _ => RewriteResult.err { message := "rewritten" }) }
        { message := "boom", extensions := some [] } =
      some { message := "rewritten", extensions := some [] }) :=
  ⟨(c3_rewrite_error_pipeline (fun _ => .nullResult) { message := "boom" }
      initBState { message := "" }).1 rfl,
   (c3_rewrite_error_pipeline (fun _ => .nonError) { message := "boom" }
      initBState { message := "" }).2.1 rfl,
   (c3_rewrite_error_pipeline (fun _ => .err { message := "rewritten" })
      { message := "boom", extensions := some [] }
      initBState { message := "rewritten" }).2.2.1 rfl⟩

/-- Claim C4: with metrics all true but no header policy configured, the
completed trace reports `persistedQueryHit` and `persistedQueryRegister` as
false — they are set inside the branch guarded by `sendHeaders ||
privateHeaders != null` — while the same metrics with a header policy yield
true; the cache/forbidden/registered flags always equal the metrics read at
request end, for every configuration. -/
theorem c4_persisted_query_flags_gated :
    (requestTraceFlags {}
        { responseCacheHit := true, forbiddenOperation := true,
          registeredOperation := true, persistedQueryHit := true,
          persistedQueryRegister := true }
        { responseCacheHit := true, forbiddenOperation := true,
          registeredOperation := true, persistedQueryHit := true,
          persistedQueryRegister := true }).persistedQueryHit = false ∧
    (requestTraceFlags {}
        { persistedQueryRegister := true }
        { persistedQueryRegister := true }).persistedQueryRegister = false ∧
    ({ responseCacheHit := true, forbiddenOperation := true,
        registeredOperation := true, persistedQueryHit := true,
        persistedQueryRegister := true } : Metrics).persistedQueryHit
      = true ∧
    (requestTraceFlags { sendHeaders := some (.safelistAll true) }
        { persistedQueryHit := true }
        { persistedQueryHit := true }).persistedQueryHit = true ∧
    (∀ (o : EngineReportingOptions) (ms me : Metrics),
      (requestTraceFlags o ms me).fullQueryCacheHit = me.responseCacheHit ∧
      (requestTraceFlags o ms me).forbiddenOperation = me.forbiddenOperation ∧
      (requestTraceFlags o ms me).registeredOperation
        = me.registeredOperation) :=
  ⟨rfl, rfl, rfl, rfl, fun _ _ _ => ⟨rfl, rfl, rfl⟩⟩

/-- Claim C5: with variables `a = 1`, `b = "x"` and the policy redacting all
but `a` (except list containing `b`), the recorded map is exactly
`a = "1", b = ""`; under the default policy (no configuration) every
variable of every mapping records the empty-string marker; and a literal
empty-string value, when sent, records as the two-character JSON encoding
of the empty string. -/
theorem c5_variable_redaction :
    makeTraceDetails [("a", .numV 1), ("b", .strV "x")]
        (some (.exceptVariableNames ["b"])) none =
      { variablesJson := [("a", "1"), ("b", "")] } ∧
    (∀ (vars : List (String × JSValue)) (q : Option String),
      makeTraceDetails vars none q =
        { variablesJson := vars.map (fun p => (p.1, "")) }) ∧
    makeTraceDetails [("a", .strV "")] (some (.safelistAll true)) none =
      { variablesJson := [("a", "\"\"")] } ∧
    ("\"\"" : String).length = 2 :=
  ⟨rfl, fun _ _ => rfl, rfl, rfl⟩

theorem headers_out_spec {headers : List (String × String)}
    {pol : SendHeadersPolicy} {p : String × List String}
    (h : p ∈ makeHTTPRequestHeaders headers (some pol)) :
    (p.1 ≠ "authorization" ∧ p.1 ≠ "cookie" ∧ p.1 ≠ "set-cookie") ∧
    (∀ l, pol = .except l → ∀ e ∈ l, strLower e ≠ strLower p.1) := by
  cases pol with
  | safelistAll b =>
    cases b with
    | false => simp [makeHTTPRequestHeaders] at h
    | true =>
      simp only [makeHTTPRequestHeaders] at h
      obtain ⟨kv, hkv, hf⟩ := List.mem_filterMap.mp h
      rw [if_neg (by simp)] at hf
      by_cases hc : kv.1 = "authorization" ∨ kv.1 = "cookie" ∨
          kv.1 = "set-cookie"
      · rw [if_pos hc] at hf
        exact absurd hf (by simp)
      · rw [if_neg hc] at hf
        injection hf with hf2
        have hp : p = (kv.1, [kv.2]) := hf2.symm
        push_neg at hc
        subst hp
        exact ⟨hc, fun l hl => by simp at hl⟩
  | except l =>
    simp only [makeHTTPRequestHeaders] at h
    obtain ⟨kv, hkv, hf⟩ := List.mem_filterMap.mp h
    by_cases h1 : (l.any fun e => strLower e = strLower kv.1) = true
    · rw [if_pos h1] at hf
      exact absurd hf (by simp)
    · rw [if_neg h1] at hf
      by_cases h2 : kv.1 = "authorization" ∨ kv.1 = "cookie" ∨
          kv.1 = "set-cookie"
      · rw [if_pos h2] at hf
        exact absurd hf (by simp)
      · rw [if_neg h2] at hf
        injection hf with hf2
        have hp : p = (kv.1, [kv.2]) := hf2.symm
        push_neg at h2
        subst hp
        refine ⟨h2, ?_⟩
        intro l' hl' e he hcontra
        injection hl' with hll
        subst hll
        apply h1
        rw [List.any_eq_true]
        refine ⟨e, he, ?_⟩
        simp only [decide_eq_true_eq]
        exact hcontra

/-- Claim C6: for every input header map, under every header policy (the
new `sendHeaders` forms and the legacy `privateHeaders` form), the recorded
request-header map never holds an entry named `authorization`, `cookie` or
`set-cookie` (iteration of the fetch-API `Headers` yields lower-cased
names, so no casing variant can appear either), and a header matching the
configured except list case-insensitively is never recorded. -/
theorem c6_sensitive_headers_always_dropped
    (headers : List (String × String))
    (sendHeaders : Option SendHeadersPolicy) (legacy : LegacyNames)
    (p : String × List String) :
    (p ∈ makeHTTPRequestHeaders headers sendHeaders →
      p.1 ≠ "authorization" ∧ p.1 ≠ "cookie" ∧ p.1 ≠ "set-cookie") ∧
    (p ∈ makeHTTPRequestHeadersLegacy headers legacy →
      p.1 ≠ "authorization" ∧ p.1 ≠ "cookie" ∧ p.1 ≠ "set-cookie") ∧
    (∀ l, p ∈ makeHTTPRequestHeaders headers (some (.except l)) →
      ∀ e ∈ l, strLower e ≠ strLower p.1) := by
  refine ⟨?_, ?_, ?_⟩
  · intro h
    cases sendHeaders with
    | none => simp [makeHTTPRequestHeaders] at h
    | some pol => exact (headers_out_spec h).1
  · intro h
    unfold makeHTTPRequestHeadersLegacy at h
    cases legacy with
    | list l => exact (headers_out_spec h).1
    | bool b => exact (headers_out_spec h).1
  · intro l h
    exact (headers_out_spec h).2 l rfl

/-- Claim C6, witness: a harmless header passes through (lower-cased) and
is none of the sensitive three; an except list entry in different casing
drops its header, and an `Authorization` header is dropped even under a
safelist-all policy. -/
theorem c6_sensitive_headers_always_dropped_witness :
    (("x-powered-by", ["v"]) ∈
        makeHTTPRequestHeaders [("X-Powered-By", "v"), ("Authorization", "s")]
          (some (.safelistAll true))) ∧
    ("x-powered-by" ≠ "authorization" ∧ "x-powered-by" ≠ "cookie" ∧
      "x-powered-by" ≠ "set-cookie") ∧
    makeHTTPRequestHeaders [("X-Key", "v")] (some (.except ["x-KEY"])) = [] := by
  have hmem : ("x-powered-by", ["v"]) ∈
      makeHTTPRequestHeaders [("X-Powered-By", "v"), ("Authorization", "s")]
        (some (.safelistAll true)) := by
    rw [show makeHTTPRequestHeaders
        [("X-Powered-By", "v"), ("Authorization", "s")]
        (some (.safelistAll true)) = [("x-powered-by", ["v"])] from rfl]
    simp
  exact ⟨hmem,
    (c6_sensitive_headers_always_dropped
      [("X-Powered-By", "v"), ("Authorization", "s")]
      (some (.safelistAll true)) (.bool false) ("x-powered-by", ["v"])).1 hmem,
    rfl⟩

theorem makeTraceDetails_keys (vars : List (String × JSValue))
    (pol : Option VariableValueOptions) (q : Option String) :
    (makeTraceDetails vars pol q).variablesJson.map Prod.fst
      = vars.map Prod.fst := by
  cases pol with
  | none => simp [makeTraceDetails]
  | some vv =>
    cases vv with
    | valueModifier f =>
      simp [makeTraceDetails, cleanModifiedVariables, List.map_map]
    | safelistAll b => simp [makeTraceDetails]
    | exceptVariableNames l => simp [makeTraceDetails]

/-- Claim C7, counterexample.  With one variable `a` and a configured value
modifier returning the empty mapping (omitting `a`), the recorded details
still hold an entry for `a` — carrying the empty-string redaction marker —
rather than no entry at all as the claim states. -/
theorem c7_counterexample :
    (makeTraceDetails [("a", .numV 1)]
        (some (.valueModifier (fun _ _ => []))) none).variablesJson
      = [("a", "")] := by
  rfl

/-- Claim C7 (amended): with a configured value modifier, the recorded key
set equals the original key set exactly — keys the modifier adds are
dropped, and keys it omits are re-added by `cleanModifiedVariables` with an
undefined value and recorded as an entry holding the empty-string marker
(present, not absent). -/
theorem c7_amended_modifier_key_set (vars : List (String × JSValue))
    (f : List (String × JSValue) → Option String → List (String × JSValue))
    (q : Option String) :
    ((makeTraceDetails vars (some (.valueModifier f)) q).variablesJson.map
        Prod.fst = vars.map Prod.fst) ∧
    (∀ name, name ∈ vars.map Prod.fst →
      recordGet (f vars q) name = JSValue.undefinedV →
      (name, "") ∈
        (makeTraceDetails vars (some (.valueModifier f)) q).variablesJson) := by
  refine ⟨makeTraceDetails_keys vars _ q, ?_⟩
  intro name hmem hund
  simp only [makeTraceDetails, cleanModifiedVariables]
  refine List.mem_map.mpr ⟨(name, recordGet (f vars q) name), ?_, ?_⟩
  · exact List.mem_map.mpr ⟨name, hmem, rfl⟩
  · show (name, _) = (name, "")
    rw [hund]
    rfl

/-- Claim C7 (amended), witness: the single original key `a`, omitted by
the modifier, is present in the details with the empty-string marker. -/
theorem c7_amended_modifier_key_set_witness :
    ("a", "") ∈ (makeTraceDetails [("a", JSValue.numV 1)]
      (some (.valueModifier (fun _ _ => []))) none).variablesJson :=
  (c7_amended_modifier_key_set [("a", JSValue.numV 1)] (fun _ _ => [])
    none).2 "a" (by simp) rfl

/-- Claim C8, counterexample.  The paths consisting of the single field
named `2` and of the single array index `2` are distinct, the field name
contains no dot, yet both serialize to the key `2`: the keying is not
injective over paths whose field names merely avoid the dot character. -/
theorem c8_counterexample :
    responsePathAsString [PathSeg.field "2"]
      = responsePathAsString [PathSeg.index 2] ∧
    ([PathSeg.field "2"] : List PathSeg) ≠ [PathSeg.index 2] ∧
    '.' ∉ ("2" : String).data :=
  ⟨rfl, by decide, by decide⟩

/-- Claim C8 (amended): the path `field → 2 → subfield` (leaf-first in the
linked-list model) serializes to `field.2.subfield` and the root path to
the empty string; and the keying is injective over paths whose field-name
segments are nonempty, contain no dot, and are not the decimal rendering of
any index — as is the case for every real GraphQL field name. -/
theorem c8_amended_path_keying :
    responsePathAsString [PathSeg.field "subfield", PathSeg.index 2,
        PathSeg.field "field"] = "field.2.subfield" ∧
    responsePathAsString [] = "" ∧
    (∀ p q : List PathSeg, GoodPath p → GoodPath q →
      responsePathAsString p = responsePathAsString q → p = q) :=
  ⟨rfl, rfl, responsePathAsString_injective⟩

/-- Claim C8 (amended), witness at the one-segment path `x`. -/
theorem c8_amended_path_keying_witness :
    ([PathSeg.field "x", PathSeg.index 0] : List PathSeg)
      = [PathSeg.field "x", PathSeg.index 0] := by
  have hgood : GoodPath [PathSeg.field "x", PathSeg.index 0] := by
    intro s hs
    simp only [List.mem_cons, List.mem_singleton] at hs
    rcases hs with hs | hs | hs
    · subst hs
      refine ⟨by decide, by decide, ?_⟩
      intro i hx
      have hdat := congrArg String.data hx
      rw [repr_data] at hdat
      have hmem : 'x' ∈ Nat.toDigits 10 i := by
        rw [← hdat]
        simp
      exact absurd (toDigits_all_digit i 'x' hmem) (by decide)
    · subst hs
      trivial
    · simp at hs
  exact c8_amended_path_keying.2.2 _ _ hgood hgood rfl

/-- Claim C9: a variable whose value cannot be JSON-encoded (the encoder
throws; `jsonStringify` returns `none`) records, under a sending policy,
the JSON-encoded sentinel string — quotes included — in place of its value,
and `makeTraceDetails` still returns normally with exactly one entry per
variable of the mapping, for every policy: the failure never escapes. -/
theorem c9_json_failure_sentinel (pre post : List (String × JSValue))
    (name : String) (v : JSValue) (q : Option String)
    (henc : jsonStringify v = none) (hnn : isNullish v = false) :
    (makeTraceDetails (pre ++ (name, v) :: post)
        (some (.safelistAll true)) q).variablesJson
      = (makeTraceDetails pre (some (.safelistAll true)) q).variablesJson
        ++ (name, "\"[Unable to convert value to JSON]\"")
          :: (makeTraceDetails post (some (.safelistAll true)) q).variablesJson ∧
    (∀ (vars : List (String × JSValue)) (pol : Option VariableValueOptions),
      (makeTraceDetails vars pol q).variablesJson.map Prod.fst
        = vars.map Prod.fst) := by
  constructor
  · simp only [makeTraceDetails, List.map_append, List.map_cons]
    rw [hnn, henc]
    rfl
  · intro vars pol
    exact makeTraceDetails_keys vars pol q

/-- Claim C9, witness at a cyclic value. -/
theorem c9_json_failure_sentinel_witness :
    (makeTraceDetails [("a", JSValue.cyclicV)]
        (some (.safelistAll true)) none).variablesJson
      = [("a", "\"[Unable to convert value to JSON]\"")] := by
  have h := (c9_json_failure_sentinel [] [] "a" JSValue.cyclicV none rfl rfl).1
  simpa using h

/-- Claim C10: under the safelist-all policy a variable whose value is
null or undefined records the empty string — the same representation as the
redaction marker, not the JSON text `null` and not an absent key; and a key
the configured value modifier omitted, re-added as undefined by
`cleanModifiedVariables`, likewise records an entry holding the empty
string.  A recorded empty string therefore does not imply redaction by
policy. -/
theorem c10_nullish_records_empty_string (q : Option String) :
    (∀ (pre post : List (String × JSValue)) (name : String) (v : JSValue),
      isNullish v = true →
      (makeTraceDetails (pre ++ (name, v) :: post)
          (some (.safelistAll true)) q).variablesJson
        = (makeTraceDetails pre (some (.safelistAll true)) q).variablesJson
          ++ (name, "")
            :: (makeTraceDetails post
              (some (.safelistAll true)) q).variablesJson) ∧
    (∀ (vars : List (String × JSValue))
      (f : List (String × JSValue) → Option String → List (String × JSValue))
      (name : String),
      name ∈ vars.map Prod.fst →
      recordGet (f vars q) name = JSValue.undefinedV →
      (name, "") ∈
        (makeTraceDetails vars (some (.valueModifier f)) q).variablesJson) := by
  constructor
  · intro pre post name v hv
    simp only [makeTraceDetails, List.map_append, List.map_cons]
    rw [hv]
    rfl
  · intro vars f name hmem hund
    simp only [makeTraceDetails, cleanModifiedVariables]
    refine List.mem_map.mpr ⟨(name, recordGet (f vars q) name), ?_, ?_⟩
    · exact List.mem_map.mpr ⟨name, hmem, rfl⟩
    · show (name, _) = (name, "")
      rw [hund]
      rfl

/-- Claim C10, witness: a null-valued variable under safelist-all records
the empty string, and a key omitted by the modifier records the empty
string. -/
theorem c10_nullish_records_empty_string_witness :
    (makeTraceDetails [("a", JSValue.nullV)]
        (some (.safelistAll true)) none).variablesJson = [("a", "")] ∧
    ("b", "") ∈ (makeTraceDetails [("b", JSValue.numV 2)]
        (some (.valueModifier (fun _ _ => []))) none).variablesJson := by
  constructor
  · have h := (c10_nullish_records_empty_string none).1 [] [] "a"
      JSValue.nullV rfl
    simpa using h
  · exact (c10_nullish_records_empty_string none).2 [("b", JSValue.numV 2)]
      (fun _ _ => []) "b" (by simp) rfl
